import Mathlib

/-!
Shallow embedding of the O-FOX core (`src/qfox_core.py`) and verification of
its specification claims.

Modelling conventions:
* Python `float` arithmetic is embedded as exact rational arithmetic (`ℚ`).
* `datetime` timestamps are rationals measured in seconds (the source converts
  `total_seconds() / 60` to minutes where it compares durations).
* Python dictionaries (insertion ordered) are embedded as association lists;
  `d[k] = v` replaces the entry in place when the key is present and appends
  otherwise (`dictSet`).  The controller's `agents`/`tasks` dicts are keyed by
  the object's own `id` field, so they are embedded as lists of the objects
  themselves, looked up by that field.
* `uuid.uuid4()` ids are opaque strings supplied by the caller of the
  constructing operation; freshness is a hypothesis where it matters.
* `random.random()` draws are supplied as an explicit stream of rationals.
-/

namespace OFox

/-- `class TaskStatus(Enum)` in qfox_core.py. -/
inductive TaskStatus
  | pending
  | in_progress
  | completed
  | failed
  deriving DecidableEq, Repr

/-- `class AgentStatus(Enum)` in qfox_core.py. -/
inductive AgentStatus
  | idle
  | busy
  | learning
  | optimizing
  deriving DecidableEq, Repr

/-- `@dataclass Task` in qfox_core.py. -/
structure Task where
  id : String
  name : String := ""
  description : String := ""
  required_capabilities : List String := []
  complexity : ℚ := 1
  priority : ℚ := 1
  estimated_duration : ℚ := 1
  status : TaskStatus := TaskStatus.pending
  assigned_agent : Option String := none
  created_at : ℚ := 0
  started_at : Option ℚ := none
  completed_at : Option ℚ := none
  actual_duration : Option ℚ := none
  success_score : Option ℚ := none
  deriving DecidableEq, Repr

/-- Entry of `Agent.performance_history` (built in `record_performance`). -/
structure PerfRecord where
  task_id : String
  success : Bool
  duration : ℚ
  complexity : ℚ
  capabilities : List String
  timestamp : ℚ
  deriving DecidableEq, Repr

/-- `@dataclass Agent` in qfox_core.py. -/
structure Agent where
  id : String
  name : String := ""
  capabilities : List String := []
  confidence_scores : List (String × ℚ) := []
  success_history : List (String × List ℤ) := []
  performance_history : List PerfRecord := []
  status : AgentStatus := AgentStatus.idle
  current_task : Option String := none
  total_tasks_completed : ℕ := 0
  total_tasks_failed : ℕ := 0
  average_success_rate : ℚ := 0
  learning_rate : ℚ := 1/10
  adaptability_score : ℚ := 1/2
  created_at : ℚ := 0
  last_activity : ℚ := 0
  deriving DecidableEq, Repr

/-- Python dict assignment `d[k] = v`: update in place when the key is
present, append otherwise. -/
def dictSet {β : Type} (k : String) (v : β) (m : List (String × β)) :
    List (String × β) :=
  if (m.lookup k).isSome then m.map (fun p => if p.1 = k then (k, v) else p)
  else m ++ [(k, v)]

/-- `Agent.__post_init__`: seed confidence 0.5 and an empty outcome history
for every declared capability not already present. -/
def seedConfidence (caps : List String) : List (String × ℚ) :=
  caps.foldl (fun m c => if (m.lookup c).isSome then m else m ++ [(c, 1/2)]) []

/-- `Agent.__post_init__`, history part. -/
def seedHistory (caps : List String) : List (String × List ℤ) :=
  caps.foldl (fun m c => if (m.lookup c).isSome then m else m ++ [(c, [])]) []

/-- `Agent(name=name, capabilities=capabilities)` as constructed by
`QFoxController.add_agent`, with `__post_init__` applied. -/
def Agent.make (id name : String) (caps : List String) : Agent :=
  { id := id
    name := name
    capabilities := caps
    confidence_scores := seedConfidence caps
    success_history := seedHistory caps }

/-- `Agent.get_capability_confidence`: stored value, default 0.5. -/
def Agent.get_capability_confidence (a : Agent) (c : String) : ℚ :=
  (a.confidence_scores.lookup c).getD (1/2)

/-- `Agent.get_success_rate`: mean of the recorded outcomes, default 0.5 when
there is no history. -/
def Agent.get_success_rate (a : Agent) (c : String) : ℚ :=
  let h := (a.success_history.lookup c).getD []
  if h = [] then 1/2 else ((h.sum : ℤ) : ℚ) / (h.length : ℚ)

/-- `Agent.update_confidence(capability, outcome)`.

The source reads `self.confidence_scores[capability]` by direct index; the
dataclass `__post_init__` seeds every declared capability, so for any agent
built by the system that index always finds a stored value.  The model reads
the stored value with the same 0.5 default that `get_capability_confidence`
uses, which coincides with the source on all seeded agents. -/
def Agent.update_confidence (a : Agent) (capability : String) (outcome : ℤ) :
    Agent :=
  if capability ∉ a.capabilities then a
  else
    let current_confidence := (a.confidence_scores.lookup capability).getD (1/2)
    let new_confidence :=
      current_confidence + a.learning_rate * ((outcome : ℚ) - current_confidence)
    let new_confidence := max 0 (min 1 new_confidence)
    let scores := dictSet capability new_confidence a.confidence_scores
    let h := (a.success_history.lookup capability).getD []
    let h := h ++ [outcome]
    let h := if h.length > 10 then h.drop (h.length - 10) else h
    let hist := dictSet capability h a.success_history
    let adaptability :=
      if scores ≠ [] then (scores.map (·.2)).sum / (scores.length : ℚ)
      else a.adaptability_score
    { a with confidence_scores := scores, success_history := hist,
             adaptability_score := adaptability }

/-- A finite sequence of `update_confidence` calls, applied in order. -/
def Agent.applyUpdates (a : Agent) (upds : List (String × ℤ)) : Agent :=
  upds.foldl (fun a p => a.update_confidence p.1 p.2) a

/-- The last `n` elements of a list (Python `l[-n:]`). -/
def lastN {α : Type} (n : ℕ) (l : List α) : List α :=
  l.drop (l.length - n)

/-- `Agent.record_performance`. -/
def Agent.record_performance (a : Agent) (task_id : String) (success : Bool)
    (duration complexity : ℚ) (caps : List String) (now : ℚ) : Agent :=
  let a := { a with performance_history :=
    a.performance_history ++
      [({ task_id := task_id, success := success, duration := duration,
          complexity := complexity, capabilities := caps,
          timestamp := now } : PerfRecord)] }
  let a :=
    if success then
      { a with total_tasks_completed := a.total_tasks_completed + 1 }
    else
      { a with total_tasks_failed := a.total_tasks_failed + 1 }
  let total := a.total_tasks_completed + a.total_tasks_failed
  let a :=
    if total > 0 then
      { a with average_success_rate := (a.total_tasks_completed : ℚ) / (total : ℚ) }
    else a
  { a with last_activity := now }

/-- The `system_metrics` dict of `QFoxController.__init__`. -/
structure Metrics where
  total_tasks_created : ℕ := 0
  total_tasks_completed : ℕ := 0
  total_tasks_failed : ℕ := 0
  average_completion_time : ℚ := 0
  system_efficiency : ℚ := 0
  agent_utilization : ℚ := 0
  deriving DecidableEq, Repr

/-- Entry of `assignment_history` (built in `assign_tasks`). -/
structure AssignmentRecord where
  task_id : String
  agent_id : String
  score : ℚ
  timestamp : ℚ
  deriving DecidableEq, Repr

/-- The mutable state of `class QFoxController` (device manager and
simulation timestamps are outside the modelled claims). -/
structure QFoxController where
  agents : List Agent := []
  tasks : List Task := []
  assignment_history : List AssignmentRecord := []
  system_metrics : Metrics := {}
  simulation_active : Bool := false
  training_mode : Bool := false
  deriving DecidableEq, Repr

/-- `self.tasks.get(tid)`. -/
def QFoxController.getTask (s : QFoxController) (tid : String) : Option Task :=
  s.tasks.find? (fun t => t.id == tid)

/-- `self.agents.get(aid)`. -/
def QFoxController.getAgent (s : QFoxController) (aid : String) : Option Agent :=
  s.agents.find? (fun a => a.id == aid)

/-- Replace an existing task object (in-place mutation of the dict value). -/
def setTask (ts : List Task) (t : Task) : List Task :=
  ts.map (fun x => if x.id = t.id then t else x)

/-- Replace an existing agent object (in-place mutation of the dict value). -/
def setAgent (as_ : List Agent) (a : Agent) : List Agent :=
  as_.map (fun x => if x.id = a.id then a else x)

/-- `QFoxController.add_agent`; the fresh uuid is the `id` argument. -/
def QFoxController.add_agent (s : QFoxController) (id name : String)
    (caps : List String) : QFoxController × String :=
  ({ s with agents := s.agents ++ [Agent.make id name caps] }, id)

/-- `QFoxController.remove_agent`. -/
def QFoxController.remove_agent (s : QFoxController) (agent_id : String) :
    QFoxController × Bool :=
  match s.getAgent agent_id with
  | none => (s, false)
  | some agent =>
    let tasks :=
      match agent.current_task with
      | none => s.tasks
      | some tid =>
        match s.getTask tid with
        | none => s.tasks
        | some task =>
          setTask s.tasks
            { task with status := TaskStatus.pending, assigned_agent := none }
    ({ s with tasks := tasks,
              agents := s.agents.filter (fun a => ¬ a.id = agent_id) }, true)

/-- `QFoxController.create_task`; the fresh uuid is the `id` argument. -/
def QFoxController.create_task (s : QFoxController) (id name description : String)
    (required_capabilities : List String) (complexity priority : ℚ)
    (estimated_duration : ℚ) (now : ℚ) : QFoxController × String :=
  let t : Task :=
    { id := id, name := name, description := description,
      required_capabilities := required_capabilities,
      complexity := complexity, priority := priority,
      estimated_duration := estimated_duration, created_at := now }
  ({ s with tasks := s.tasks ++ [t],
            system_metrics :=
              { s.system_metrics with
                  total_tasks_created := s.system_metrics.total_tasks_created + 1 } },
   id)

/-- `QFoxController.remove_task`. -/
def QFoxController.remove_task (s : QFoxController) (task_id : String) :
    QFoxController × Bool :=
  match s.getTask task_id with
  | none => (s, false)
  | some task =>
    let agents :=
      match task.assigned_agent with
      | none => s.agents
      | some aid =>
        match s.getAgent aid with
        | none => s.agents
        | some agent =>
          setAgent s.agents
            { agent with current_task := none, status := AgentStatus.idle }
    ({ s with agents := agents,
              tasks := s.tasks.filter (fun t => ¬ t.id = task_id) }, true)

/-- `QFoxController.calculate_agent_score`.  The two accumulation loops over
`task.required_capabilities` are folds carrying (sum, count). -/
def calculate_agent_score (agent : Agent) (task : Task) : ℚ :=
  if agent.capabilities = [] ∨ task.required_capabilities = [] then 0
  else
    let matching_capabilities :=
      (task.required_capabilities.filter (fun c => c ∈ agent.capabilities)).dedup
    let capability_match : ℚ :=
      (matching_capabilities.length : ℚ) / (task.required_capabilities.length : ℚ)
    let cc :=
      task.required_capabilities.foldl
        (fun (p : ℚ × ℕ) c =>
          if c ∈ agent.capabilities then
            (p.1 + agent.get_capability_confidence c, p.2 + 1)
          else p)
        (0, 0)
    let avg_confidence := if cc.2 > 0 then cc.1 / (cc.2 : ℚ) else 0
    let sr :=
      task.required_capabilities.foldl
        (fun (p : ℚ × ℕ) c =>
          if c ∈ agent.capabilities then
            (p.1 + agent.get_success_rate c, p.2 + 1)
          else p)
        (0, 0)
    let avg_success_rate := if sr.2 > 0 then sr.1 / (sr.2 : ℚ) else 0
    let load_score : ℚ := if agent.status = AgentStatus.idle then 1 else 3/10
    capability_match * (40/100) + avg_confidence * (35/100) +
      avg_success_rate * (15/100) + load_score * (10/100)

/-- The inner selection loop of `assign_tasks`: running best agent and best
score, starting from `(None, 0.0)`, updated on strict improvement. -/
def pickBest (pool : List Agent) (t : Task) : Option Agent × ℚ :=
  pool.foldl
    (fun acc a =>
      let score := calculate_agent_score a t
      if score > acc.2 then (some a, score) else acc)
    (none, 0)

/-- `available_agents.remove(best_agent)`: drop the first occurrence. -/
def removeFirst (pool : List Agent) (a : Agent) : List Agent :=
  match pool with
  | [] => []
  | x :: xs => if x = a then xs else x :: removeFirst xs a

/-- One iteration of the `for task in pending_tasks` loop of `assign_tasks`,
threading (controller, available agents, assignments made so far). -/
def assignStep (now : ℚ)
    (st : QFoxController × List Agent × List AssignmentRecord) (t : Task) :
    QFoxController × List Agent × List AssignmentRecord :=
  let s := st.1
  let pool := st.2.1
  let recs := st.2.2
  match pickBest pool t with
  | (some best_agent, best_score) =>
    if best_score > 1/10 then
      let t' := { t with assigned_agent := some best_agent.id,
                         status := TaskStatus.in_progress,
                         started_at := some now }
      let a' := { best_agent with current_task := some t.id,
                                  status := AgentStatus.busy }
      let r : AssignmentRecord :=
        { task_id := t.id, agent_id := best_agent.id, score := best_score,
          timestamp := now }
      ({ s with tasks := setTask s.tasks t',
                agents := setAgent s.agents a',
                assignment_history := s.assignment_history ++ [r] },
       removeFirst pool best_agent, recs ++ [r])
    else (s, pool, recs)
  | (none, _) => (s, pool, recs)

/-- The whole `for task in pending_tasks` loop. -/
def assignLoop (now : ℚ)
    (st : QFoxController × List Agent × List AssignmentRecord)
    (ts : List Task) : QFoxController × List Agent × List AssignmentRecord :=
  ts.foldl (assignStep now) st

/-- `pending_tasks.sort(key=lambda t: t.priority, reverse=True)`: Python's
sort is stable, so it coincides with stable insertion sort by descending
priority. -/
def sortByPriority (ts : List Task) : List Task :=
  ts.insertionSort (fun t1 t2 => t2.priority ≤ t1.priority)

/-- The sorted pending list a call to `assign_tasks` iterates over. -/
def QFoxController.sortedPending (s : QFoxController) : List Task :=
  sortByPriority (s.tasks.filter (fun t => t.status = TaskStatus.pending))

/-- `QFoxController.assign_tasks`. -/
def QFoxController.assign_tasks (s : QFoxController) (now : ℚ) :
    QFoxController × List AssignmentRecord :=
  let pending_tasks := s.tasks.filter (fun t => t.status = TaskStatus.pending)
  let available_agents := s.agents.filter (fun a => a.status = AgentStatus.idle)
  if pending_tasks = [] ∨ available_agents = [] then (s, [])
  else
    let out := assignLoop now (s, available_agents, []) (sortByPriority pending_tasks)
    (out.1, out.2.2)

/-- `QFoxController._update_system_metrics`. -/
def QFoxController.update_system_metrics (s : QFoxController) : QFoxController :=
  let m := s.system_metrics
  let total := m.total_tasks_completed + m.total_tasks_failed
  let m :=
    if total > 0 then
      { m with system_efficiency := (m.total_tasks_completed : ℚ) / (total : ℚ) }
    else m
  let busy := (s.agents.filter (fun a => a.status ≠ AgentStatus.idle)).length
  let m :=
    if s.agents.length > 0 then
      { m with agent_utilization := (busy : ℚ) / (s.agents.length : ℚ) }
    else m
  { s with system_metrics := m }

/-- `QFoxController.process_task_completion`. -/
def QFoxController.process_task_completion (s : QFoxController)
    (task_id : String) (success : Bool) (actual_duration : ℚ) (now : ℚ) :
    QFoxController :=
  match s.getTask task_id with
  | none => s
  | some task =>
    match task.assigned_agent with
    | none => s
    | some aid =>
      match s.getAgent aid with
      | none => s
      | some agent =>
        let task' :=
          { task with
              status := if success then TaskStatus.completed else TaskStatus.failed,
              completed_at := some now,
              actual_duration := some actual_duration,
              success_score := some (if success then 1 else 0) }
        let agent' :=
          task.required_capabilities.foldl
            (fun a c => a.update_confidence c (if success then 1 else 0)) agent
        let agent' :=
          agent'.record_performance task_id success actual_duration
            task.complexity task.required_capabilities now
        let agent' := { agent' with current_task := none,
                                    status := AgentStatus.idle }
        let m := s.system_metrics
        let m :=
          if success then
            { m with total_tasks_completed := m.total_tasks_completed + 1 }
          else
            { m with total_tasks_failed := m.total_tasks_failed + 1 }
        QFoxController.update_system_metrics
          { s with tasks := setTask s.tasks task',
                   agents := setAgent s.agents agent',
                   system_metrics := m }

/-- The success-probability expression of `simulate_task_execution`: the sum
of the agent's confidences over the required capabilities it has declared,
divided by the total number of required capabilities, times
`(1 - complexity * 0.1)`.  Not clamped.  (On an empty requirement list the
source raises `ZeroDivisionError`; the model's rational division yields 0,
and no theorem depends on that case.) -/
def successProbability (agent : Agent) (task : Task) : ℚ :=
  let avg_confidence :=
    ((task.required_capabilities.filter (fun c => c ∈ agent.capabilities)).map
        (fun c => agent.get_capability_confidence c)).sum /
      (task.required_capabilities.length : ℚ)
  avg_confidence * (1 - task.complexity * (1/10))

/-- The `for task in active_tasks` loop of `simulate_task_execution`; `us` is
the stream of `random.random()` draws, consumed one per completion decision
(assumed long enough). -/
def simulateLoop (now : ℚ) (s : QFoxController) (ts : List Task)
    (us : List ℚ) : QFoxController :=
  match ts with
  | [] => s
  | t :: rest =>
    match t.started_at with
    | none => simulateLoop now s rest us
    | some st =>
      let elapsed_time := (now - st) / 60
      if elapsed_time ≥ t.estimated_duration then
        match (match t.assigned_agent with
               | none => none
               | some aid => s.getAgent aid) with
        | some agent =>
          match us with
          | [] => s
          | u :: us' =>
            let success := u < successProbability agent t
            simulateLoop now
              (s.process_task_completion t.id success elapsed_time now) rest us'
        | none => simulateLoop now s rest us
      else simulateLoop now s rest us

/-- `QFoxController.simulate_task_execution`. -/
def QFoxController.simulate_task_execution (s : QFoxController) (now : ℚ)
    (us : List ℚ) : QFoxController :=
  if ¬ s.simulation_active then s
  else
    simulateLoop now s
      (s.tasks.filter (fun t => t.status = TaskStatus.in_progress)) us

/-! ### Association-list (Python dict) lemmas -/

theorem lookup_cons_self {β : Type} (k : String) (v : β)
    (m : List (String × β)) : ((k, v) :: m).lookup k = some v := by
  simp [List.lookup_cons]

theorem lookup_cons_ne {β : Type} {k k' : String} (hne : k' ≠ k) (v : β)
    (m : List (String × β)) : ((k, v) :: m).lookup k' = m.lookup k' := by
  simp [List.lookup_cons, beq_false_of_ne hne]

theorem lookup_append_of_eq_none {β : Type} {m : List (String × β)} {k : String}
    (h : m.lookup k = none) (v : β) : (m ++ [(k, v)]).lookup k = some v := by
  induction m with
  | nil => simp [lookup_cons_self]
  | cons p m ih =>
    obtain ⟨k', v'⟩ := p
    by_cases hk : k = k'
    · subst hk; rw [lookup_cons_self] at h; cases h
    · rw [lookup_cons_ne hk] at h
      rw [List.cons_append, lookup_cons_ne hk]
      exact ih h

theorem lookup_map_replace {β : Type} {m : List (String × β)} {k : String}
    (h : (m.lookup k).isSome) (v : β) :
    (m.map (fun p => if p.1 = k then (k, v) else p)).lookup k = some v := by
  induction m with
  | nil => simp at h
  | cons p m ih =>
    obtain ⟨k', v'⟩ := p
    by_cases hk : k' = k
    · subst hk
      simp only [List.map_cons, eq_self_iff_true, if_true]
      exact lookup_cons_self _ v _
    · rw [lookup_cons_ne (Ne.symm hk)] at h
      simp only [List.map_cons, if_neg hk]
      rw [lookup_cons_ne (Ne.symm hk)]
      exact ih h

theorem lookup_dictSet_self {β : Type} (k : String) (v : β)
    (m : List (String × β)) : (dictSet k v m).lookup k = some v := by
  unfold dictSet
  split
  · exact lookup_map_replace (by assumption) v
  · rename_i h
    exact lookup_append_of_eq_none (Option.not_isSome_iff_eq_none.1 h) v

theorem lookup_map_replace_other {β : Type} {k k' : String} (hne : k' ≠ k)
    (v : β) (m : List (String × β)) :
    (m.map (fun p => if p.1 = k then (k, v) else p)).lookup k' = m.lookup k' := by
  induction m with
  | nil => simp
  | cons p m ih =>
    obtain ⟨k0, v0⟩ := p
    by_cases hk : k0 = k
    · subst hk
      simp only [List.map_cons, eq_self_iff_true, if_true]
      rw [lookup_cons_ne hne, lookup_cons_ne hne]
      exact ih
    · simp only [List.map_cons, if_neg hk]
      by_cases hq : k' = k0
      · subst hq; rw [lookup_cons_self, lookup_cons_self]
      · rw [lookup_cons_ne hq, lookup_cons_ne hq]
        exact ih

theorem lookup_append_singleton_other {β : Type} {k k' : String}
    (hne : k' ≠ k) (v : β) (m : List (String × β)) :
    (m ++ [(k, v)]).lookup k' = m.lookup k' := by
  induction m with
  | nil => simp [lookup_cons_ne hne]
  | cons p m ih =>
    obtain ⟨k0, v0⟩ := p
    by_cases hq : k' = k0
    · subst hq; rw [List.cons_append, lookup_cons_self, lookup_cons_self]
    · rw [List.cons_append, lookup_cons_ne hq, lookup_cons_ne hq]
      exact ih

theorem lookup_dictSet_other {β : Type} {k k' : String} (hne : k' ≠ k)
    (v : β) (m : List (String × β)) :
    (dictSet k v m).lookup k' = m.lookup k' := by
  unfold dictSet
  split
  · exact lookup_map_replace_other hne v m
  · exact lookup_append_singleton_other hne v m

theorem mem_dictSet {β : Type} {p : String × β} {k : String} {v : β}
    {m : List (String × β)} (h : p ∈ dictSet k v m) :
    p = (k, v) ∨ p ∈ m := by
  unfold dictSet at h
  split at h
  · rcases List.mem_map.1 h with ⟨q, hq, he⟩
    by_cases hk : q.1 = k
    · left; rw [← he]; simp [hk]
    · right; rw [← he]; simpa [hk] using hq
  · rcases List.mem_append.1 h with h | h
    · right; exact h
    · left; simpa using h

/-! ### Clamping -/

theorem clamp01_nonneg (x : ℚ) : 0 ≤ max 0 (min 1 x) := le_max_left 0 _

theorem clamp01_le_one (x : ℚ) : max 0 (min 1 x) ≤ 1 :=
  max_le (by norm_num) (min_le_left 1 x)

/-! ### `update_confidence` structural lemmas -/

theorem update_confidence_capabilities (a : Agent) (k : String) (o : ℤ) :
    (a.update_confidence k o).capabilities = a.capabilities := by
  unfold Agent.update_confidence; split <;> rfl

theorem update_confidence_id (a : Agent) (k : String) (o : ℤ) :
    (a.update_confidence k o).id = a.id := by
  unfold Agent.update_confidence; split <;> rfl

theorem update_confidence_learning_rate (a : Agent) (k : String) (o : ℤ) :
    (a.update_confidence k o).learning_rate = a.learning_rate := by
  unfold Agent.update_confidence; split <;> rfl

theorem update_confidence_status (a : Agent) (k : String) (o : ℤ) :
    (a.update_confidence k o).status = a.status := by
  unfold Agent.update_confidence; split <;> rfl

theorem update_confidence_current_task (a : Agent) (k : String) (o : ℤ) :
    (a.update_confidence k o).current_task = a.current_task := by
  unfold Agent.update_confidence; split <;> rfl

theorem update_confidence_conf_self {a : Agent} {k : String} {c : ℚ}
    (hk : k ∈ a.capabilities) (hc : a.confidence_scores.lookup k = some c)
    (o : ℤ) :
    (a.update_confidence k o).confidence_scores.lookup k =
      some (max 0 (min 1 (c + a.learning_rate * ((o : ℚ) - c)))) := by
  unfold Agent.update_confidence
  rw [if_neg (by simpa using hk)]
  simp only [hc, Option.getD_some]
  exact lookup_dictSet_self _ _ _

theorem update_confidence_conf_bounds {a : Agent}
    (h : ∀ p ∈ a.confidence_scores, 0 ≤ p.2 ∧ p.2 ≤ 1) (k : String) (o : ℤ) :
    ∀ p ∈ (a.update_confidence k o).confidence_scores, 0 ≤ p.2 ∧ p.2 ≤ 1 := by
  unfold Agent.update_confidence
  split
  · exact h
  · intro p hp
    rcases mem_dictSet hp with rfl | hp
    · exact ⟨clamp01_nonneg _, clamp01_le_one _⟩
    · exact h p hp

theorem update_confidence_history_self {a : Agent} {k : String}
    (hk : k ∈ a.capabilities) (o : ℤ) :
    (a.update_confidence k o).success_history.lookup k =
      some (lastN 10 (((a.success_history.lookup k).getD []) ++ [o])) := by
  unfold Agent.update_confidence
  rw [if_neg (by simpa using hk)]
  rw [lookup_dictSet_self]
  congr 1
  unfold lastN
  split
  · rfl
  · rw [Nat.sub_eq_zero_of_le (by omega), List.drop_zero]

theorem update_confidence_history_other {a : Agent} {k c : String}
    (hne : c ≠ k) (o : ℤ) :
    (a.update_confidence k o).success_history.lookup c =
      a.success_history.lookup c := by
  unfold Agent.update_confidence
  split
  · rfl
  · exact lookup_dictSet_other hne _ _

theorem update_confidence_conf_other {a : Agent} {k c : String}
    (hne : c ≠ k) (o : ℤ) :
    (a.update_confidence k o).confidence_scores.lookup c =
      a.confidence_scores.lookup c := by
  unfold Agent.update_confidence
  split
  · rfl
  · exact lookup_dictSet_other hne _ _

/-! ### `lastN` lemmas -/

theorem lastN_length_le {α : Type} (n : ℕ) (l : List α) :
    (lastN n l).length ≤ n := by
  unfold lastN; simp; omega

theorem lastN_of_length_le {α : Type} {n : ℕ} {l : List α}
    (h : l.length ≤ n) : lastN n l = l := by
  unfold lastN
  rw [Nat.sub_eq_zero_of_le h, List.drop_zero]

theorem lastN_append_lastN {α : Type} (n : ℕ) (l r : List α) :
    lastN n (lastN n l ++ r) = lastN n (l ++ r) := by
  unfold lastN
  rw [List.drop_append_eq_append_drop, List.drop_drop,
    List.drop_append_eq_append_drop]
  have hlen : (l.drop (l.length - n)).length = l.length - (l.length - n) := by
    simp
  congr 1
  · congr 1
    simp only [List.length_append, List.length_drop]
    omega
  · congr 1
    simp only [List.length_append, List.length_drop]
    omega

theorem applyUpdates_conf_bounds (upds : List (String × ℤ)) :
    ∀ (a : Agent), (∀ p ∈ a.confidence_scores, 0 ≤ p.2 ∧ p.2 ≤ 1) →
      ∀ p ∈ (a.applyUpdates upds).confidence_scores, 0 ≤ p.2 ∧ p.2 ≤ 1 := by
  induction upds with
  | nil => intro a h; exact h
  | cons u rest ih =>
    intro a h
    exact ih _ (update_confidence_conf_bounds h u.1 u.2)

/-- C2: for a declared capability, `update_confidence` with old confidence
`c`, learning rate `r` and outcome `o` stores exactly
`clamp(c + r*(o - c), 0, 1)`; and starting from confidences in `[0,1]`,
every confidence stays in `[0,1]` after any sequence of update calls. -/
theorem C2_confidence_update_exact_and_bounded :
    (∀ (a : Agent) (cap : String) (o : ℤ) (c : ℚ),
        cap ∈ a.capabilities →
        a.confidence_scores.lookup cap = some c →
        (a.update_confidence cap o).confidence_scores.lookup cap =
          some (max 0 (min 1 (c + a.learning_rate * ((o : ℚ) - c))))) ∧
    (∀ (a : Agent) (upds : List (String × ℤ)),
        (∀ p ∈ a.confidence_scores, 0 ≤ p.2 ∧ p.2 ≤ 1) →
        ∀ p ∈ (a.applyUpdates upds).confidence_scores, 0 ≤ p.2 ∧ p.2 ≤ 1) :=
  ⟨fun _ _ o _ hk hc => update_confidence_conf_self hk hc o,
   fun a upds h => applyUpdates_conf_bounds upds a h⟩

theorem C2_witness :
    ("x" ∈ (Agent.make "A" "alpha" ["x"]).capabilities ∧
      (Agent.make "A" "alpha" ["x"]).confidence_scores.lookup "x" =
        some (1/2) ∧
      (∀ p ∈ (Agent.make "A" "alpha" ["x"]).confidence_scores,
        0 ≤ p.2 ∧ p.2 ≤ 1)) ∧
    ((Agent.make "A" "alpha" ["x"]).update_confidence "x" 1).confidence_scores.lookup "x" =
      some (max 0 (min 1
        ((1/2) + (Agent.make "A" "alpha" ["x"]).learning_rate * (((1 : ℤ) : ℚ) - (1/2))))) ∧
    (∀ p ∈ ((Agent.make "A" "alpha" ["x"]).applyUpdates
        [("x", 1), ("x", 0)]).confidence_scores, 0 ≤ p.2 ∧ p.2 ≤ 1) :=
  ⟨⟨by decide, rfl, by norm_num [Agent.make, seedConfidence]⟩,
   C2_confidence_update_exact_and_bounded.1 (Agent.make "A" "alpha" ["x"])
     "x" 1 (1/2) (by decide) rfl,
   C2_confidence_update_exact_and_bounded.2 (Agent.make "A" "alpha" ["x"])
     [("x", 1), ("x", 0)] (by norm_num [Agent.make, seedConfidence])⟩

theorem applyUpdates_cons (a : Agent) (u : String × ℤ)
    (rest : List (String × ℤ)) :
    a.applyUpdates (u :: rest) =
      (a.update_confidence u.1 u.2).applyUpdates rest := rfl

theorem applyUpdates_history {c : String} :
    ∀ (upds : List (String × ℤ)) (a : Agent), c ∈ a.capabilities →
      ((a.success_history.lookup c).getD []).length ≤ 10 →
      ((a.applyUpdates upds).success_history.lookup c).getD [] =
        lastN 10 ((a.success_history.lookup c).getD [] ++
          (upds.filter (fun p => p.1 = c)).map (fun p => p.2)) := by
  intro upds
  induction upds with
  | nil =>
    intro a _ hlen
    simp only [Agent.applyUpdates, List.foldl_nil, List.filter_nil,
      List.map_nil, List.append_nil]
    exact (lastN_of_length_le hlen).symm
  | cons u rest ih =>
    intro a hc hlen
    obtain ⟨k, o⟩ := u
    rw [applyUpdates_cons]
    by_cases hk : k = c
    · subst hk
      have h1 := update_confidence_history_self hc o
      have h2 := ih (a.update_confidence k o)
        (by rw [update_confidence_capabilities]; exact hc)
        (by rw [h1]; simpa using lastN_length_le 10 _)
      rw [h2, h1]
      simp only [Option.getD_some]
      rw [lastN_append_lastN]
      simp [List.filter_cons, List.append_assoc]
    · have h1 := update_confidence_history_other (Ne.symm hk) o (a := a)
      have h2 := ih (a.update_confidence k o)
        (by rw [update_confidence_capabilities]; exact hc)
        (by rw [h1]; exact hlen)
      rw [h2, h1]
      congr 2
      simp [List.filter_cons, hk]

/-- C6: for every agent and declared capability, after any sequence of
`update_confidence` calls starting from an empty history, the capability's
outcome history is exactly the last 10 outcomes recorded for it, in order,
and therefore never holds more than 10 entries. -/
theorem C6_history_bounded_last_ten :
    ∀ (a : Agent) (c : String) (upds : List (String × ℤ)),
      c ∈ a.capabilities →
      (a.success_history.lookup c).getD [] = [] →
      ((a.applyUpdates upds).success_history.lookup c).getD [] =
        lastN 10 ((upds.filter (fun p => p.1 = c)).map (fun p => p.2)) ∧
      (((a.applyUpdates upds).success_history.lookup c).getD []).length ≤ 10 := by
  intro a c upds hc h0
  have h := applyUpdates_history upds a hc (by rw [h0]; simp)
  rw [h0, List.nil_append] at h
  exact ⟨h, by rw [h]; exact lastN_length_le 10 _⟩

/-- Twelve outcomes pushed for capability `"x"` (the spec's own test shape). -/
def upds12 : List (String × ℤ) :=
  [("x", 1), ("x", 0), ("x", 1), ("x", 1), ("x", 0), ("x", 1),
   ("x", 0), ("x", 0), ("x", 1), ("x", 1), ("x", 0), ("x", 1)]

theorem C6_witness :
    ("x" ∈ (Agent.make "A" "alpha" ["x"]).capabilities ∧
      ((Agent.make "A" "alpha" ["x"]).success_history.lookup "x").getD [] = []) ∧
    ((((Agent.make "A" "alpha" ["x"]).applyUpdates upds12).success_history.lookup
          "x").getD [] =
        lastN 10 ((upds12.filter (fun p => p.1 = "x")).map (fun p => p.2)) ∧
      ((((Agent.make "A" "alpha" ["x"]).applyUpdates
            upds12).success_history.lookup "x").getD []).length ≤ 10) :=
  ⟨⟨by decide, rfl⟩,
   C6_history_bounded_last_ten (Agent.make "A" "alpha" ["x"]) "x" upds12
     (by decide) rfl⟩

/-- C9: `process_task_completion` is a complete no-op when the task id is
unknown, the task has no assigned agent, or the assigned agent id is not
registered. -/
theorem C9_completion_noop_on_missing :
    ∀ (s : QFoxController) (tid : String) (success : Bool) (dur now : ℚ),
      (s.getTask tid = none ∨
        (∃ t, s.getTask tid = some t ∧ t.assigned_agent = none) ∨
        (∃ t aid, s.getTask tid = some t ∧ t.assigned_agent = some aid ∧
          s.getAgent aid = none)) →
      s.process_task_completion tid success dur now = s := by
  intro s tid success dur now h
  unfold QFoxController.process_task_completion
  rcases h with h | ⟨t, ht, ha⟩ | ⟨t, aid, ht, ha, hg⟩
  · rw [h]
  · rw [ht]; dsimp only; rw [ha]
  · rw [ht]; dsimp only; rw [ha]; dsimp only; rw [hg]

theorem C9_witness :
    (({} : QFoxController).getTask "t" = none ∨
      (∃ t, ({} : QFoxController).getTask "t" = some t ∧
        t.assigned_agent = none) ∨
      (∃ t aid, ({} : QFoxController).getTask "t" = some t ∧
        t.assigned_agent = some aid ∧ ({} : QFoxController).getAgent aid = none)) ∧
    ({} : QFoxController).process_task_completion "t" true 1 0 =
      ({} : QFoxController) :=
  ⟨Or.inl rfl, C9_completion_noop_on_missing {} "t" true 1 0 (Or.inl rfl)⟩

/-! ### Well-formed agents and score bounds -/

/-- Data-model ranges for an agent's learned state: stored confidences lie in
`[0,1]` and recorded outcomes are 0 or 1 (both hold for every agent the
system constructs). -/
def WellFormedAgent (a : Agent) : Prop :=
  (∀ p ∈ a.confidence_scores, 0 ≤ p.2 ∧ p.2 ≤ 1) ∧
  (∀ p ∈ a.success_history, ∀ o ∈ p.2, o = 0 ∨ o = 1)

instance (a : Agent) : Decidable (WellFormedAgent a) := by
  unfold WellFormedAgent; infer_instance

theorem lookup_mem {β : Type} :
    ∀ {m : List (String × β)} {k : String} {v : β},
      m.lookup k = some v → (k, v) ∈ m := by
  intro m
  induction m with
  | nil => intro k v h; cases h
  | cons p m ih =>
    intro k v h
    obtain ⟨k0, v0⟩ := p
    by_cases hk : k = k0
    · subst hk
      rw [lookup_cons_self] at h
      cases h
      exact List.mem_cons_self _ _
    · rw [lookup_cons_ne hk] at h
      exact List.mem_cons_of_mem _ (ih h)

theorem confidence_bounds {a : Agent} (hwf : WellFormedAgent a) (c : String) :
    0 ≤ a.get_capability_confidence c ∧ a.get_capability_confidence c ≤ 1 := by
  unfold Agent.get_capability_confidence
  cases h : a.confidence_scores.lookup c with
  | none => norm_num
  | some v =>
    simpa using hwf.1 (c, v) (lookup_mem h)

theorem success_rate_bounds {a : Agent} (hwf : WellFormedAgent a) (c : String) :
    0 ≤ a.get_success_rate c ∧ a.get_success_rate c ≤ 1 := by
  unfold Agent.get_success_rate
  cases h : a.success_history.lookup c with
  | none => norm_num
  | some l =>
    simp only [Option.getD_some]
    split
    · norm_num
    · rename_i hne
      have hb : ∀ o ∈ l, (0 : ℤ) ≤ o ∧ o ≤ 1 := by
        intro o ho
        rcases hwf.2 (c, l) (lookup_mem h) o ho with rfl | rfl <;> norm_num
      have hsum0 : (0 : ℤ) ≤ l.sum :=
        List.sum_nonneg (fun o ho => (hb o ho).1)
      have hsum1 : l.sum ≤ (l.length : ℤ) := by
        have := List.sum_le_card_nsmul l 1 (fun o ho => (hb o ho).2)
        simpa using this
      have hlen : (0 : ℚ) < (l.length : ℚ) := by
        have : l.length ≠ 0 := by simpa using (List.length_pos.2 hne).ne'
        positivity
      constructor
      · apply div_nonneg _ hlen.le
        exact_mod_cast hsum0
      · rw [div_le_one hlen]
        exact_mod_cast hsum1

theorem mean_bounds {l : List ℚ} (h : ∀ x ∈ l, 0 ≤ x ∧ x ≤ 1) :
    0 ≤ l.sum / (l.length : ℚ) ∧ l.sum / (l.length : ℚ) ≤ 1 := by
  rcases eq_or_ne l [] with rfl | hne
  · norm_num
  · have hlen : (0 : ℚ) < (l.length : ℚ) := by
      have : l.length ≠ 0 := by simpa using (List.length_pos.2 hne).ne'
      positivity
    constructor
    · exact div_nonneg (List.sum_nonneg fun x hx => (h x hx).1) hlen.le
    · rw [div_le_one hlen]
      have := List.sum_le_card_nsmul l 1 (fun x hx => (h x hx).2)
      simpa using this

theorem foldl_sum_count (f : String → ℚ) (caps : List String) :
    ∀ (l : List String) (s0 : ℚ) (n0 : ℕ),
      l.foldl
        (fun (p : ℚ × ℕ) c =>
          if c ∈ caps then (p.1 + f c, p.2 + 1) else p) (s0, n0) =
      (s0 + ((l.filter (fun c => c ∈ caps)).map f).sum,
        n0 + (l.filter (fun c => c ∈ caps)).length) := by
  intro l
  induction l with
  | nil => intro s0 n0; simp
  | cons c l ih =>
    intro s0 n0
    by_cases hc : c ∈ caps
    · simp only [List.foldl_cons, if_pos hc, ih, List.filter_cons, hc]
      simp [add_assoc, add_comm, add_left_comm]
    · simp only [List.foldl_cons, if_neg hc, ih, List.filter_cons, hc]
      simp

theorem calculate_agent_score_eq (agent : Agent) (task : Task)
    (h1 : agent.capabilities ≠ []) (h2 : task.required_capabilities ≠ []) :
    calculate_agent_score agent task =
      (((task.required_capabilities.filter
            (fun c => c ∈ agent.capabilities)).dedup.length : ℚ) /
          (task.required_capabilities.length : ℚ)) * (40/100) +
      (if task.required_capabilities.filter (fun c => c ∈ agent.capabilities) = []
        then 0
        else ((task.required_capabilities.filter
                (fun c => c ∈ agent.capabilities)).map
              (fun c => agent.get_capability_confidence c)).sum /
            ((task.required_capabilities.filter
                (fun c => c ∈ agent.capabilities)).length : ℚ)) * (35/100) +
      (if task.required_capabilities.filter (fun c => c ∈ agent.capabilities) = []
        then 0
        else ((task.required_capabilities.filter
                (fun c => c ∈ agent.capabilities)).map
              (fun c => agent.get_success_rate c)).sum /
            ((task.required_capabilities.filter
                (fun c => c ∈ agent.capabilities)).length : ℚ)) * (15/100) +
      (if agent.status = AgentStatus.idle then 1 else 3/10) * (10/100) := by
  unfold calculate_agent_score
  rw [if_neg (by simp [h1, h2])]
  rw [foldl_sum_count, foldl_sum_count]
  by_cases hF :
      task.required_capabilities.filter (fun c => c ∈ agent.capabilities) = []
  · simp [hF]
  · have hlen :
        0 < (task.required_capabilities.filter
          (fun c => c ∈ agent.capabilities)).length :=
      List.length_pos.2 hF
    simp [hF, hlen]

theorem calculate_agent_score_bounds {agent : Agent} (task : Task)
    (hwf : WellFormedAgent agent) :
    0 ≤ calculate_agent_score agent task ∧
      calculate_agent_score agent task ≤ 1 := by
  by_cases hg : agent.capabilities = [] ∨ task.required_capabilities = []
  · unfold calculate_agent_score
    rw [if_pos hg]
    norm_num
  · push_neg at hg
    rw [calculate_agent_score_eq agent task hg.1 hg.2]
    set F := task.required_capabilities.filter (fun c => c ∈ agent.capabilities)
      with hFdef
    have hreq : (0 : ℚ) < (task.required_capabilities.length : ℚ) := by
      have : task.required_capabilities.length ≠ 0 := by
        simpa using (List.length_pos.2 hg.2).ne'
      positivity
    have hm0 : (0 : ℚ) ≤ (F.dedup.length : ℚ) / (task.required_capabilities.length : ℚ) :=
      div_nonneg (by positivity) hreq.le
    have hm1 : (F.dedup.length : ℚ) / (task.required_capabilities.length : ℚ) ≤ 1 := by
      rw [div_le_one hreq]
      have hd : F.dedup.length ≤ F.length := F.dedup_sublist.length_le
      have hf : F.length ≤ task.required_capabilities.length :=
        List.length_filter_le _ _
      exact_mod_cast le_trans hd hf
    have hc : 0 ≤ (if F = [] then 0
          else (F.map (fun c => agent.get_capability_confidence c)).sum /
            (F.length : ℚ)) ∧
        (if F = [] then 0
          else (F.map (fun c => agent.get_capability_confidence c)).sum /
            (F.length : ℚ)) ≤ 1 := by
      split
      · norm_num
      · have := mean_bounds (l := F.map (fun c => agent.get_capability_confidence c))
          (by
            intro x hx
            rcases List.mem_map.1 hx with ⟨c, _, rfl⟩
            exact confidence_bounds hwf c)
        simpa using this
    have hs : 0 ≤ (if F = [] then 0
          else (F.map (fun c => agent.get_success_rate c)).sum /
            (F.length : ℚ)) ∧
        (if F = [] then 0
          else (F.map (fun c => agent.get_success_rate c)).sum /
            (F.length : ℚ)) ≤ 1 := by
      split
      · norm_num
      · have := mean_bounds (l := F.map (fun c => agent.get_success_rate c))
          (by
            intro x hx
            rcases List.mem_map.1 hx with ⟨c, _, rfl⟩
            exact success_rate_bounds hwf c)
        simpa using this
    have hl : (3/10 : ℚ) ≤ (if agent.status = AgentStatus.idle then (1 : ℚ) else 3/10) ∧
        (if agent.status = AgentStatus.idle then (1 : ℚ) else 3/10) ≤ 1 := by
      split <;> norm_num
    constructor
    · have := hl.1
      nlinarith [hc.1, hs.1, hm0, hc.2, hs.2, hm1]
    · nlinarith [hc.1, hs.1, hm0, hc.2, hs.2, hm1, hl.1, hl.2]

/-- C7: for well-formed agents the assignment score lies in `[0,1]`; it is 0
when either capability list is empty, and otherwise equals
`0.40*(capability match) + 0.35*(mean confidence over matched required
capabilities, 0 if none) + 0.15*(mean success rate over matched required
capabilities, 0 if none) + 0.10*(1.0 if Idle else 0.3)`. -/
theorem C7_score_range_and_formula :
    ∀ (agent : Agent) (task : Task), WellFormedAgent agent →
      (0 ≤ calculate_agent_score agent task ∧
        calculate_agent_score agent task ≤ 1) ∧
      ((agent.capabilities = [] ∨ task.required_capabilities = []) →
        calculate_agent_score agent task = 0) ∧
      (agent.capabilities ≠ [] → task.required_capabilities ≠ [] →
        calculate_agent_score agent task =
          (((task.required_capabilities.filter
                (fun c => c ∈ agent.capabilities)).dedup.length : ℚ) /
              (task.required_capabilities.length : ℚ)) * (40/100) +
          (if task.required_capabilities.filter
                (fun c => c ∈ agent.capabilities) = []
            then 0
            else ((task.required_capabilities.filter
                    (fun c => c ∈ agent.capabilities)).map
                  (fun c => agent.get_capability_confidence c)).sum /
                ((task.required_capabilities.filter
                    (fun c => c ∈ agent.capabilities)).length : ℚ)) * (35/100) +
          (if task.required_capabilities.filter
                (fun c => c ∈ agent.capabilities) = []
            then 0
            else ((task.required_capabilities.filter
                    (fun c => c ∈ agent.capabilities)).map
                  (fun c => agent.get_success_rate c)).sum /
                ((task.required_capabilities.filter
                    (fun c => c ∈ agent.capabilities)).length : ℚ)) * (15/100) +
          (if agent.status = AgentStatus.idle then 1 else 3/10) * (10/100)) :=
  fun agent task hwf =>
    ⟨calculate_agent_score_bounds task hwf,
     fun hg => by unfold calculate_agent_score; rw [if_pos hg],
     fun h1 h2 => calculate_agent_score_eq agent task h1 h2⟩

theorem C7_witness :
    WellFormedAgent (Agent.make "A" "alpha" ["x"]) ∧
    (0 ≤ calculate_agent_score (Agent.make "A" "alpha" ["x"])
        { id := "t", required_capabilities := ["x", "y"] } ∧
      calculate_agent_score (Agent.make "A" "alpha" ["x"])
        { id := "t", required_capabilities := ["x", "y"] } ≤ 1) :=
  ⟨by norm_num [WellFormedAgent, Agent.make, seedConfidence, seedHistory],
   (C7_score_range_and_formula (Agent.make "A" "alpha" ["x"])
      { id := "t", required_capabilities := ["x", "y"] }
      (by norm_num [WellFormedAgent, Agent.make, seedConfidence,
        seedHistory])).1⟩

/-! ### `removeFirst`, `setTask`/`setAgent`, `pickBest` lemmas -/

theorem removeFirst_sublist (a : Agent) :
    ∀ pool : List Agent, List.Sublist (removeFirst pool a) pool := by
  intro pool
  induction pool with
  | nil => simp [removeFirst]
  | cons x xs ih =>
    unfold removeFirst
    split
    · exact List.sublist_cons_self x xs
    · exact ih.cons₂ x

theorem mem_of_mem_removeFirst {a x : Agent} {pool : List Agent}
    (h : x ∈ removeFirst pool a) : x ∈ pool :=
  (removeFirst_sublist a pool).subset h

theorem removeFirst_ids_nodup {a : Agent} {pool : List Agent}
    (h : (pool.map (fun b => b.id)).Nodup) :
    ((removeFirst pool a).map (fun b => b.id)).Nodup :=
  h.sublist ((removeFirst_sublist a pool).map _)

theorem mem_removeFirst_ne_id {a x : Agent} :
    ∀ {pool : List Agent}, (pool.map (fun b => b.id)).Nodup → a ∈ pool →
      x ∈ removeFirst pool a → x.id ≠ a.id := by
  intro pool
  induction pool with
  | nil => intro _ ha; cases ha
  | cons y ys ih =>
    intro hnd ha hx
    rw [List.map_cons, List.nodup_cons] at hnd
    unfold removeFirst at hx
    split at hx
    · rename_i hya
      subst hya
      intro he
      exact hnd.1 (he ▸ List.mem_map_of_mem _ hx)
    · rename_i hya
      rcases List.mem_cons.1 hx with rfl | hx
      · have hays : a ∈ ys := by
          rcases List.mem_cons.1 ha with rfl | h
          · exact absurd rfl hya
          · exact h
        intro he
        exact hnd.1 (he ▸ List.mem_map_of_mem _ hays)
      · have hays : a ∈ ys := by
          rcases List.mem_cons.1 ha with rfl | h
          · exact absurd rfl hya
          · exact h
        exact ih hnd.2 hays hx

theorem find?_setTask_ne {ts : List Task} {t' : Task} {x : String}
    (h : ¬ t'.id = x) :
    (setTask ts t').find? (fun t => t.id == x) =
      ts.find? (fun t => t.id == x) := by
  induction ts with
  | nil => rfl
  | cons y ys ih =>
    unfold setTask at *
    by_cases hy : y.id = t'.id
    · simp only [List.map_cons, if_pos hy, List.find?_cons]
      rw [show (t'.id == x) = false by simpa using h,
        show (y.id == x) = false by rw [hy]; simpa using h]
      exact ih
    · simp only [List.map_cons, if_neg hy, List.find?_cons]
      cases hyx : (y.id == x)
      · exact ih
      · rfl

theorem find?_setTask_self {t' : Task} :
    ∀ {ts : List Task}, (∃ y ∈ ts, y.id = t'.id) →
      (setTask ts t').find? (fun t => t.id == t'.id) = some t' := by
  intro ts
  induction ts with
  | nil => rintro ⟨y, hy, _⟩; cases hy
  | cons y ys ih =>
    intro hex
    unfold setTask at *
    by_cases hy : y.id = t'.id
    · simp [if_pos hy]
    · simp only [List.map_cons, if_neg hy, List.find?_cons]
      rw [show (y.id == t'.id) = false by simpa using hy]
      apply ih
      rcases hex with ⟨z, hz, hze⟩
      rcases List.mem_cons.1 hz with rfl | hz
      · exact absurd hze hy
      · exact ⟨z, hz, hze⟩

theorem find?_setAgent_ne {as_ : List Agent} {a' : Agent} {x : String}
    (h : ¬ a'.id = x) :
    (setAgent as_ a').find? (fun a => a.id == x) =
      as_.find? (fun a => a.id == x) := by
  induction as_ with
  | nil => rfl
  | cons y ys ih =>
    unfold setAgent at *
    by_cases hy : y.id = a'.id
    · simp only [List.map_cons, if_pos hy, List.find?_cons]
      rw [show (a'.id == x) = false by simpa using h,
        show (y.id == x) = false by rw [hy]; simpa using h]
      exact ih
    · simp only [List.map_cons, if_neg hy, List.find?_cons]
      cases hyx : (y.id == x)
      · exact ih
      · rfl

theorem find?_setAgent_self {a' : Agent} :
    ∀ {as_ : List Agent}, (∃ y ∈ as_, y.id = a'.id) →
      (setAgent as_ a').find? (fun a => a.id == a'.id) = some a' := by
  intro as_
  induction as_ with
  | nil => rintro ⟨y, hy, _⟩; cases hy
  | cons y ys ih =>
    intro hex
    unfold setAgent at *
    by_cases hy : y.id = a'.id
    · simp [if_pos hy]
    · simp only [List.map_cons, if_neg hy, List.find?_cons]
      rw [show (y.id == a'.id) = false by simpa using hy]
      apply ih
      rcases hex with ⟨z, hz, hze⟩
      rcases List.mem_cons.1 hz with rfl | hz
      · exact absurd hze hy
      · exact ⟨z, hz, hze⟩

theorem setTask_map_id (ts : List Task) (t' : Task) :
    (setTask ts t').map (fun t => t.id) = ts.map (fun t => t.id) := by
  induction ts with
  | nil => rfl
  | cons y ys ih =>
    unfold setTask at *
    by_cases hy : y.id = t'.id
    · simp only [List.map_cons, if_pos hy, ih]
      rw [hy]
    · simp only [List.map_cons, if_neg hy, ih]

theorem setAgent_map_id (as_ : List Agent) (a' : Agent) :
    (setAgent as_ a').map (fun a => a.id) = as_.map (fun a => a.id) := by
  induction as_ with
  | nil => rfl
  | cons y ys ih =>
    unfold setAgent at *
    by_cases hy : y.id = a'.id
    · simp only [List.map_cons, if_pos hy, ih]
      rw [hy]
    · simp only [List.map_cons, if_neg hy, ih]

theorem mem_setTask {ts : List Task} {t' x : Task} (h : x ∈ setTask ts t') :
    x = t' ∨ x ∈ ts := by
  unfold setTask at h
  rcases List.mem_map.1 h with ⟨y, hy, he⟩
  by_cases hyt : y.id = t'.id
  · left; rw [← he, if_pos hyt]
  · right; rw [← he, if_neg hyt]; exact hy

theorem mem_setAgent {as_ : List Agent} {a' x : Agent}
    (h : x ∈ setAgent as_ a') : x = a' ∨ x ∈ as_ := by
  unfold setAgent at h
  rcases List.mem_map.1 h with ⟨y, hy, he⟩
  by_cases hya : y.id = a'.id
  · left; rw [← he, if_pos hya]
  · right; rw [← he, if_neg hya]; exact hy

theorem self_mem_setTask {ts : List Task} {t' : Task}
    (h : ∃ y ∈ ts, y.id = t'.id) : t' ∈ setTask ts t' := by
  rcases h with ⟨y, hy, hye⟩
  unfold setTask
  exact List.mem_map.2 ⟨y, hy, by rw [if_pos hye]⟩

theorem self_mem_setAgent {as_ : List Agent} {a' : Agent}
    (h : ∃ y ∈ as_, y.id = a'.id) : a' ∈ setAgent as_ a' := by
  rcases h with ⟨y, hy, hye⟩
  unfold setAgent
  exact List.mem_map.2 ⟨y, hy, by rw [if_pos hye]⟩

/-- The selection fold of `assign_tasks` with a general accumulator. -/
def pickBestFold (t : Task) (pool : List Agent) (acc : Option Agent × ℚ) :
    Option Agent × ℚ :=
  pool.foldl
    (fun acc a =>
      let score := calculate_agent_score a t
      if score > acc.2 then (some a, score) else acc)
    acc

theorem pickBest_eq_fold (pool : List Agent) (t : Task) :
    pickBest pool t = pickBestFold t pool (none, 0) := rfl

theorem pickBestFold_spec (t : Task) :
    ∀ (pool : List Agent) (acc : Option Agent × ℚ),
      acc.2 ≤ (pickBestFold t pool acc).2 ∧
      (∀ a ∈ pool, calculate_agent_score a t ≤ (pickBestFold t pool acc).2) ∧
      (pickBestFold t pool acc = acc ∨
        ∃ a ∈ pool,
          pickBestFold t pool acc = (some a, calculate_agent_score a t)) := by
  intro pool
  induction pool with
  | nil => intro acc; exact ⟨le_refl _, by simp, Or.inl rfl⟩
  | cons b bs ih =>
    intro acc
    have hstep : pickBestFold t (b :: bs) acc =
        pickBestFold t bs
          (if calculate_agent_score b t > acc.2
            then (some b, calculate_agent_score b t) else acc) := rfl
    by_cases hb : calculate_agent_score b t > acc.2
    · rw [hstep, if_pos hb]
      obtain ⟨h1, h2, h3⟩ := ih (some b, calculate_agent_score b t)
      refine ⟨le_trans (le_of_lt hb) (by simpa using h1), ?_, ?_⟩
      · intro a ha
        rcases List.mem_cons.1 ha with rfl | ha
        · simpa using h1
        · exact h2 a ha
      · rcases h3 with he | ⟨a, ha, he⟩
        · exact Or.inr ⟨b, List.mem_cons_self b bs, he⟩
        · exact Or.inr ⟨a, List.mem_cons_of_mem b ha, he⟩
    · rw [hstep, if_neg hb]
      obtain ⟨h1, h2, h3⟩ := ih acc
      push_neg at hb
      refine ⟨h1, ?_, ?_⟩
      · intro a ha
        rcases List.mem_cons.1 ha with rfl | ha
        · exact le_trans hb h1
        · exact h2 a ha
      · rcases h3 with he | ⟨a, ha, he⟩
        · exact Or.inl he
        · exact Or.inr ⟨a, List.mem_cons_of_mem b ha, he⟩

theorem pickBest_snd_nonneg (pool : List Agent) (t : Task) :
    0 ≤ (pickBest pool t).2 := by
  have := (pickBestFold_spec t pool (none, 0)).1
  simpa using this

theorem pickBest_le (pool : List Agent) (t : Task) :
    ∀ a ∈ pool, calculate_agent_score a t ≤ (pickBest pool t).2 :=
  (pickBestFold_spec t pool (none, 0)).2.1

theorem pickBest_eq_some {pool : List Agent} {t : Task} {a : Agent} {sc : ℚ}
    (h : pickBest pool t = (some a, sc)) :
    a ∈ pool ∧ sc = calculate_agent_score a t := by
  rcases (pickBestFold_spec t pool (none, 0)).2.2 with he | ⟨b, hb, he⟩
  · rw [pickBest_eq_fold, he] at h
    cases h
  · rw [pickBest_eq_fold, he] at h
    obtain ⟨h1, h2⟩ := Prod.mk.injEq .. ▸ h
    cases h
    exact ⟨hb, rfl⟩

theorem assignStep_of_pickBest_none {now : ℚ} {s : QFoxController}
    {pool : List Agent} {recs : List AssignmentRecord} {t : Task} {sc : ℚ}
    (hpb : pickBest pool t = (none, sc)) :
    assignStep now (s, pool, recs) t = (s, pool, recs) := by
  unfold assignStep
  dsimp only
  rw [hpb]

theorem assignStep_of_le {now : ℚ} {s : QFoxController} {pool : List Agent}
    {recs : List AssignmentRecord} {t : Task} {a : Agent} {sc : ℚ}
    (hpb : pickBest pool t = (some a, sc)) (hle : ¬ sc > 1/10) :
    assignStep now (s, pool, recs) t = (s, pool, recs) := by
  unfold assignStep
  dsimp only
  rw [hpb]
  dsimp only
  rw [if_neg hle]

theorem assignStep_assign {now : ℚ} {s : QFoxController} {pool : List Agent}
    {recs : List AssignmentRecord} {t : Task} {a : Agent} {sc : ℚ}
    (hpb : pickBest pool t = (some a, sc)) (hgt : sc > 1/10) :
    assignStep now (s, pool, recs) t =
      ({ s with
          tasks := setTask s.tasks
            { t with assigned_agent := some a.id,
                     status := TaskStatus.in_progress,
                     started_at := some now },
          agents := setAgent s.agents
            { a with current_task := some t.id, status := AgentStatus.busy },
          assignment_history := s.assignment_history ++
            [{ task_id := t.id, agent_id := a.id, score := sc,
               timestamp := now }] },
       removeFirst pool a,
       recs ++ [{ task_id := t.id, agent_id := a.id, score := sc,
                  timestamp := now }]) := by
  unfold assignStep
  dsimp only
  rw [hpb]
  dsimp only
  rw [if_pos hgt]

theorem assignLoop_cons (now : ℚ)
    (st : QFoxController × List Agent × List AssignmentRecord) (t : Task)
    (rest : List Task) :
    assignLoop now st (t :: rest) =
      assignLoop now (assignStep now st t) rest := rfl

theorem assignLoop_records_spec (now : ℚ) :
    ∀ (ts : List Task)
      (st : QFoxController × List Agent × List AssignmentRecord),
      ∃ Δ, (assignLoop now st ts).2.2 = st.2.2 ++ Δ ∧
        (∀ r ∈ Δ, r.task_id ∈ ts.map (fun t => t.id) ∧
          ∃ a ∈ st.2.1, r.agent_id = a.id) ∧
        ((st.2.1.map (fun a => a.id)).Nodup →
          (Δ.map (fun r => r.agent_id)).Nodup) := by
  intro ts
  induction ts with
  | nil =>
    intro st
    exact ⟨[], by simp [assignLoop], by simp, by simp⟩
  | cons t rest ih =>
    rintro ⟨s, pool, recs⟩
    rw [assignLoop_cons]
    rcases hpb : pickBest pool t with ⟨o, sc⟩
    match o, hpb with
    | none, hpb =>
      rw [assignStep_of_pickBest_none hpb]
      obtain ⟨Δ, h1, h2, h3⟩ := ih (s, pool, recs)
      refine ⟨Δ, h1, ?_, h3⟩
      intro r hr
      obtain ⟨hr1, hr2⟩ := h2 r hr
      exact ⟨List.mem_cons_of_mem _ hr1, hr2⟩
    | some a, hpb =>
      by_cases hsc : sc > 1/10
      · rw [assignStep_assign hpb hsc]
        obtain ⟨hmem, hsceq⟩ := pickBest_eq_some hpb
        obtain ⟨Δ, h1, h2, h3⟩ := ih _
        refine ⟨{ task_id := t.id, agent_id := a.id, score := sc,
                  timestamp := now } :: Δ, ?_, ?_, ?_⟩
        · rw [h1]
          simp
        · intro r hr
          rcases List.mem_cons.1 hr with rfl | hr
          · exact ⟨by simp, a, hmem, rfl⟩
          · obtain ⟨hr1, hr2⟩ := h2 r hr
            obtain ⟨b, hb, hbe⟩ := hr2
            exact ⟨List.mem_cons_of_mem _ hr1,
              b, mem_of_mem_removeFirst hb, hbe⟩
        · intro hnd
          rw [List.map_cons, List.nodup_cons]
          refine ⟨?_, h3 (removeFirst_ids_nodup hnd)⟩
          intro hmm
          rcases List.mem_map.1 hmm with ⟨r, hr, hre⟩
          obtain ⟨_, b, hb, hbe⟩ := h2 r hr
          exact (mem_removeFirst_ne_id hnd hmem hb) (hbe ▸ hre)
      · rw [assignStep_of_le hpb hsc]
        obtain ⟨Δ, h1, h2, h3⟩ := ih (s, pool, recs)
        refine ⟨Δ, h1, ?_, h3⟩
        intro r hr
        obtain ⟨hr1, hr2⟩ := h2 r hr
        exact ⟨List.mem_cons_of_mem _ hr1, hr2⟩

/-- C3: the assignment records returned by one `assign_tasks` call name
pairwise distinct agents, and every named agent was registered and Idle at
the start of the call. -/
theorem C3_assignments_distinct_idle_agents :
    ∀ (s : QFoxController) (now : ℚ),
      (s.agents.map (fun a => a.id)).Nodup →
      (((s.assign_tasks now).2.map (fun r => r.agent_id)).Nodup ∧
        ∀ r ∈ (s.assign_tasks now).2,
          ∃ a ∈ s.agents, r.agent_id = a.id ∧ a.status = AgentStatus.idle) := by
  intro s now hnd
  unfold QFoxController.assign_tasks
  dsimp only
  split
  · simp
  · dsimp only
    obtain ⟨Δ, h1, h2, h3⟩ := assignLoop_records_spec now
      (sortByPriority (s.tasks.filter (fun t => t.status = TaskStatus.pending)))
      (s, s.agents.filter (fun a => a.status = AgentStatus.idle), [])
    dsimp only at h1 h2 h3
    rw [h1, List.nil_append]
    have hpool_nd :
        ((s.agents.filter (fun a => a.status = AgentStatus.idle)).map
          (fun a => a.id)).Nodup :=
      hnd.sublist ((List.filter_sublist _).map _)
    refine ⟨h3 hpool_nd, ?_⟩
    intro r hr
    obtain ⟨-, b, hb, hbe⟩ := h2 r hr
    rw [List.mem_filter] at hb
    exact ⟨b, hb.1, hbe, by simpa using hb.2⟩

/-- Idle agent with one declared capability `"x"`, fresh. -/
def agA : Agent := Agent.make "A" "alpha" ["x"]

/-- Pending task requiring `"x"`, priority 9. -/
def taskT1 : Task :=
  { id := "t1", name := "T1", required_capabilities := ["x"], priority := 9 }

/-- Pending task requiring `"x"`, priority 3. -/
def taskT2 : Task :=
  { id := "t2", name := "T2", required_capabilities := ["x"], priority := 3 }

/-- One idle agent, two matchable pending tasks. -/
def sC4 : QFoxController := { agents := [agA], tasks := [taskT1, taskT2] }

theorem C3_witness :
    (sC4.agents.map (fun a => a.id)).Nodup ∧
    (((sC4.assign_tasks 0).2.map (fun r => r.agent_id)).Nodup ∧
      ∀ r ∈ (sC4.assign_tasks 0).2,
        ∃ a ∈ sC4.agents, r.agent_id = a.id ∧ a.status = AgentStatus.idle) :=
  ⟨by decide, C3_assignments_distinct_idle_agents sC4 0 (by decide)⟩

theorem assignStep_skip {now : ℚ} {s : QFoxController} {pool : List Agent}
    {recs : List AssignmentRecord} {t : Task}
    (h : ∀ a ∈ pool, calculate_agent_score a t ≤ 1/10) :
    assignStep now (s, pool, recs) t = (s, pool, recs) := by
  rcases hpb : pickBest pool t with ⟨o, sc⟩
  match o, hpb with
  | none, hpb => exact assignStep_of_pickBest_none hpb
  | some a, hpb =>
    obtain ⟨hmem, hsc⟩ := pickBest_eq_some hpb
    exact assignStep_of_le hpb (by rw [hsc]; exact not_lt.2 (h a hmem))

theorem assignStep_getTask_ne {now : ℚ}
    {st : QFoxController × List Agent × List AssignmentRecord} {t : Task}
    {x : String} (h : ¬ t.id = x) :
    ((assignStep now st t).1).getTask x = (st.1).getTask x := by
  obtain ⟨s, pool, recs⟩ := st
  rcases hpb : pickBest pool t with ⟨o, sc⟩
  match o, hpb with
  | none, hpb => rw [assignStep_of_pickBest_none hpb]
  | some a, hpb =>
    by_cases hsc : sc > 1/10
    · rw [assignStep_assign hpb hsc]
      unfold QFoxController.getTask
      exact find?_setTask_ne h
    · rw [assignStep_of_le hpb hsc]

theorem assignLoop_getTask_not_mem (now : ℚ) :
    ∀ (ts : List Task)
      (st : QFoxController × List Agent × List AssignmentRecord) (x : String),
      x ∉ ts.map (fun t => t.id) →
      ((assignLoop now st ts).1).getTask x = (st.1).getTask x := by
  intro ts
  induction ts with
  | nil => intro st x _; rfl
  | cons t rest ih =>
    intro st x hx
    rw [List.map_cons, List.mem_cons] at hx
    push_neg at hx
    rw [assignLoop_cons]
    rw [ih _ x hx.2]
    exact assignStep_getTask_ne (fun he => hx.1 he.symm)

theorem sortedPending_perm (s : QFoxController) :
    List.Perm s.sortedPending
      (s.tasks.filter (fun t => t.status = TaskStatus.pending)) :=
  List.perm_insertionSort _ _

theorem sortedPending_ids_nodup {s : QFoxController}
    (h : (s.tasks.map (fun t => t.id)).Nodup) :
    (s.sortedPending.map (fun t => t.id)).Nodup := by
  have hf : ((s.tasks.filter (fun t => t.status = TaskStatus.pending)).map
      (fun t => t.id)).Nodup :=
    h.sublist ((List.filter_sublist _).map _)
  exact (((sortedPending_perm s).map (fun t => t.id)).nodup_iff).2 hf

theorem mem_sortedPending {s : QFoxController} {t : Task} :
    t ∈ s.sortedPending ↔
      t ∈ s.tasks ∧ t.status = TaskStatus.pending := by
  rw [(sortedPending_perm s).mem_iff, List.mem_filter]
  simp

/-- C4 (amended): when a Pending task is considered by the assignment loop,
if every still-available agent scores at most the 0.1 threshold the step
changes nothing (the task stays Pending and no agent or record changes), and
through the whole call such a task's stored state is untouched and no record
names it; the task is assigned at its step exactly when some still-available
agent's score exceeds 0.1. -/
theorem C4_threshold_skip_and_assign :
    (∀ (now : ℚ) (s : QFoxController) (pool : List Agent)
        (recs : List AssignmentRecord) (t : Task),
        (∀ a ∈ pool, calculate_agent_score a t ≤ 1/10) →
        assignStep now (s, pool, recs) t = (s, pool, recs)) ∧
    (∀ (now : ℚ) (s : QFoxController) (pool : List Agent)
        (recs : List AssignmentRecord) (t : Task),
        (∃ a ∈ pool, calculate_agent_score a t > 1/10) →
        ∃ a sc, a ∈ pool ∧ sc > 1/10 ∧
          pickBest pool t = (some a, sc) ∧
          (assignStep now (s, pool, recs) t).2.2 =
            recs ++ [{ task_id := t.id, agent_id := a.id, score := sc,
                       timestamp := now }] ∧
          ((∃ y ∈ s.tasks, y.id = t.id) →
            (assignStep now (s, pool, recs) t).1.getTask t.id =
              some { t with assigned_agent := some a.id,
                            status := TaskStatus.in_progress,
                            started_at := some now })) ∧
    (∀ (s : QFoxController) (now : ℚ) (done rest : List Task) (t : Task),
        (s.tasks.map (fun t => t.id)).Nodup →
        s.sortedPending = done ++ t :: rest →
        (∀ a ∈ (assignLoop now
            (s, s.agents.filter (fun a => a.status = AgentStatus.idle), [])
            done).2.1, calculate_agent_score a t ≤ 1/10) →
        (s.assign_tasks now).1.getTask t.id = s.getTask t.id ∧
        ∀ r ∈ (s.assign_tasks now).2, r.task_id ≠ t.id) := by
  refine ⟨fun now s pool recs t h => assignStep_skip h, ?_, ?_⟩
  · intro now s pool recs t hex
    obtain ⟨b, hb, hbgt⟩ := hex
    have hgt : (pickBest pool t).2 > 1/10 :=
      lt_of_lt_of_le hbgt (pickBest_le pool t b hb)
    obtain ⟨a, ha, hae⟩ :
        ∃ a ∈ pool, pickBest pool t = (some a, calculate_agent_score a t) := by
      rcases (pickBestFold_spec t pool (none, 0)).2.2 with he | h
      · rw [pickBest_eq_fold, he] at hgt
        norm_num at hgt
      · rw [pickBest_eq_fold]
        exact h
    have hsc : calculate_agent_score a t > 1/10 := by
      rw [hae] at hgt
      exact hgt
    refine ⟨a, calculate_agent_score a t, ha, hsc, hae, ?_, ?_⟩
    · rw [assignStep_assign hae hsc]
    · intro hy
      rw [assignStep_assign hae hsc]
      unfold QFoxController.getTask
      dsimp only
      exact @find?_setTask_self
        { t with assigned_agent := some a.id,
                 status := TaskStatus.in_progress,
                 started_at := some now } s.tasks hy
  · intro s now done rest t hnd hsplit hle
    unfold QFoxController.assign_tasks
    dsimp only
    split
    · rename_i hor
      rcases hor with hp | ha
      · exfalso
        have : s.sortedPending = [] := by
          unfold QFoxController.sortedPending
          rw [hp]
          rfl
        rw [hsplit] at this
        exact List.append_ne_nil_of_right_ne_nil _ (List.cons_ne_nil _ _) this
      · exact ⟨rfl, by simp⟩
    · dsimp only
      have hids := sortedPending_ids_nodup hnd
      rw [hsplit] at hids
      have hnotdone : t.id ∉ done.map (fun t => t.id) := by
        rw [List.map_append, List.map_cons] at hids
        have := hids
        rw [List.nodup_append] at this
        intro hmm
        exact this.2.2 hmm (List.mem_cons_self _ _)
      have hnotrest : t.id ∉ rest.map (fun t => t.id) := by
        rw [List.map_append, List.map_cons] at hids
        have h2 := hids.of_append_right
        rw [List.nodup_cons] at h2
        exact h2.1
      have hsort :
          sortByPriority
            (s.tasks.filter (fun t => t.status = TaskStatus.pending)) =
            done ++ t :: rest := hsplit
      rw [hsort]
      rw [show done ++ t :: rest = (done ++ [t]) ++ rest by simp]
      rw [show ∀ st, assignLoop now st ((done ++ [t]) ++ rest) =
            assignLoop now (assignLoop now st (done ++ [t])) rest from
          fun st => List.foldl_append ..]
      rw [show ∀ st, assignLoop now st (done ++ [t]) =
            assignLoop now (assignLoop now st done) [t] from
          fun st => List.foldl_append ..]
      rcases hmid : assignLoop now
          (s, s.agents.filter (fun a => a.status = AgentStatus.idle), [])
          done with ⟨ms, mp, mr⟩
      rw [hmid] at hle
      have hstept : assignLoop now (ms, mp, mr) [t] = (ms, mp, mr) := by
        show assignStep now (ms, mp, mr) t = (ms, mp, mr)
        exact assignStep_skip (by exact hle)
      rw [hstept]
      constructor
      · rw [assignLoop_getTask_not_mem now rest _ _ hnotrest]
        have : ms.getTask t.id =
            ((assignLoop now
              (s, s.agents.filter (fun a => a.status = AgentStatus.idle), [])
              done).1).getTask t.id := by rw [hmid]
        rw [this, assignLoop_getTask_not_mem now done _ _ hnotdone]
      · intro r hr
        obtain ⟨Δ₂, hΔ₂, hΔ₂p, -⟩ := assignLoop_records_spec now rest (ms, mp, mr)
        rw [hΔ₂] at hr
        rcases List.mem_append.1 hr with hr | hr
        · have hmr : mr = ((assignLoop now
              (s, s.agents.filter (fun a => a.status = AgentStatus.idle), [])
              done).2.2) := by rw [hmid]
          obtain ⟨Δ₁, hΔ₁, hΔ₁p, -⟩ :=
            assignLoop_records_spec now done
              (s, s.agents.filter (fun a => a.status = AgentStatus.idle), [])
          rw [hmr, hΔ₁, List.nil_append] at hr
          intro he
          exact hnotdone (he ▸ (hΔ₁p r hr).1)
        · intro he
          exact hnotrest (he ▸ (hΔ₂p r hr).1)

/-- C4 counterexample: in `sC4` agent A's score for task t2 exceeds 0.1 at
the start of the call, yet the call assigns only t1 (priority 9) and leaves
t2 Pending and untouched — so "once some agent's score for it exceeds 0.1,
it is assigned on the next call" fails as stated. -/
theorem C4_counterexample :
    calculate_agent_score agA taskT2 > 1/10 ∧
    (sC4.assign_tasks 0).2 =
      [{ task_id := "t1", agent_id := "A", score := 3/4, timestamp := 0 }] ∧
    (sC4.assign_tasks 0).1.getTask "t2" = some taskT2 ∧
    taskT2.status = TaskStatus.pending := by
  refine ⟨?_, ?_, ?_, rfl⟩
  · norm_num [calculate_agent_score, agA, taskT2, Agent.make, seedConfidence,
      seedHistory, Agent.get_capability_confidence, Agent.get_success_rate,
      List.lookup]
  · norm_num [QFoxController.assign_tasks, assignLoop, assignStep, pickBest,
      calculate_agent_score, sortByPriority, List.insertionSort,
      List.orderedInsert, sC4, agA, taskT1, taskT2, Agent.make, seedConfidence,
      seedHistory, Agent.get_capability_confidence, Agent.get_success_rate,
      setTask, setAgent, removeFirst, dictSet, QFoxController.getTask,
      List.lookup, List.cons_ne_nil, String.reduceEq, reduceCtorEq]
  · have h : (sC4.assign_tasks 0).1.tasks =
        [{ taskT1 with status := TaskStatus.in_progress,
                       assigned_agent := some "A",
                       started_at := some 0 }, taskT2] := by
      norm_num [QFoxController.assign_tasks, assignLoop, assignStep, pickBest,
        calculate_agent_score, sortByPriority, List.insertionSort,
        List.orderedInsert, sC4, agA, taskT1, taskT2, Agent.make,
        seedConfidence, seedHistory, Agent.get_capability_confidence,
        Agent.get_success_rate, setTask, setAgent, removeFirst, dictSet,
        List.lookup, List.cons_ne_nil, String.reduceEq, reduceCtorEq]
      decide
    unfold QFoxController.getTask
    rw [h]
    rfl

theorem C4_witness :
    ((sC4.tasks.map (fun t => t.id)).Nodup ∧
      sC4.sortedPending = [taskT1] ++ taskT2 :: [] ∧
      (∀ a ∈ (assignLoop 0
          (sC4, sC4.agents.filter (fun a => a.status = AgentStatus.idle), [])
          [taskT1]).2.1, calculate_agent_score a taskT2 ≤ 1/10)) ∧
    ((sC4.assign_tasks 0).1.getTask taskT2.id = sC4.getTask taskT2.id ∧
      ∀ r ∈ (sC4.assign_tasks 0).2, r.task_id ≠ taskT2.id) :=
  ⟨⟨by decide,
    by
      norm_num [QFoxController.sortedPending, sortByPriority,
        List.insertionSort, List.orderedInsert, sC4, taskT1, taskT2],
    by
      norm_num [assignLoop, assignStep, pickBest, calculate_agent_score,
        sC4, agA, taskT1, taskT2, Agent.make, seedConfidence, seedHistory,
        Agent.get_capability_confidence, Agent.get_success_rate, setTask,
        setAgent, removeFirst, List.lookup, String.reduceEq, reduceCtorEq]⟩,
   C4_threshold_skip_and_assign.2.2 sC4 0 [taskT1] [] taskT2 (by decide)
     (by
       norm_num [QFoxController.sortedPending, sortByPriority,
         List.insertionSort, List.orderedInsert, sC4, taskT1, taskT2])
     (by
       norm_num [assignLoop, assignStep, pickBest, calculate_agent_score,
         sC4, agA, taskT1, taskT2, Agent.make, seedConfidence, seedHistory,
         Agent.get_capability_confidence, Agent.get_success_rate, setTask,
         setAgent, removeFirst, List.lookup, String.reduceEq, reduceCtorEq])⟩

theorem score_no_share_eq {a : Agent} {t : Task}
    (hidle : a.status = AgentStatus.idle) (hcaps : a.capabilities ≠ [])
    (hreq : t.required_capabilities ≠ [])
    (hshare : t.required_capabilities.filter (fun c => c ∈ a.capabilities) = []) :
    calculate_agent_score a t = 1/10 := by
  rw [calculate_agent_score_eq a t hcaps hreq, hshare]
  simp [hidle]
  norm_num

theorem score_share_gt {a : Agent} {t : Task}
    (hidle : a.status = AgentStatus.idle) (hwf : WellFormedAgent a)
    {c : String} (hcr : c ∈ t.required_capabilities)
    (hca : c ∈ a.capabilities) :
    calculate_agent_score a t > 1/10 := by
  have hcaps : a.capabilities ≠ [] := List.ne_nil_of_mem hca
  have hreq : t.required_capabilities ≠ [] := List.ne_nil_of_mem hcr
  rw [calculate_agent_score_eq a t hcaps hreq]
  set F := t.required_capabilities.filter (fun c => c ∈ a.capabilities)
    with hFdef
  have hcF : c ∈ F := by
    rw [hFdef, List.mem_filter]
    exact ⟨hcr, by simpa using hca⟩
  have hF : F ≠ [] := List.ne_nil_of_mem hcF
  have hreqlen : (0 : ℚ) < (t.required_capabilities.length : ℚ) := by
    have : t.required_capabilities.length ≠ 0 := by
      simpa using (List.length_pos.2 hreq).ne'
    positivity
  have hmatch : (0 : ℚ) <
      (F.dedup.length : ℚ) / (t.required_capabilities.length : ℚ) := by
    apply div_pos _ hreqlen
    have : F.dedup ≠ [] := List.ne_nil_of_mem (List.mem_dedup.2 hcF)
    have : F.dedup.length ≠ 0 := by simpa using (List.length_pos.2 this).ne'
    positivity
  have hc0 : 0 ≤ (F.map (fun c => a.get_capability_confidence c)).sum /
      ((F.map (fun c => a.get_capability_confidence c)).length : ℚ) :=
    (mean_bounds (by
      intro x hx
      rcases List.mem_map.1 hx with ⟨d, _, rfl⟩
      exact confidence_bounds hwf d)).1
  have hs0 : 0 ≤ (F.map (fun c => a.get_success_rate c)).sum /
      ((F.map (fun c => a.get_success_rate c)).length : ℚ) :=
    (mean_bounds (by
      intro x hx
      rcases List.mem_map.1 hx with ⟨d, _, rfl⟩
      exact success_rate_bounds hwf d)).1
  rw [List.length_map] at hc0 hs0
  rw [if_neg hF, if_neg hF, if_pos hidle]
  nlinarith [hmatch, hc0, hs0]

/-- C10 (amended): an Idle agent with a non-empty capability list sharing no
capability with a non-empty-requirement task scores exactly 0.1 (an agent
with no capabilities scores 0 instead); for any Idle well-formed agent the
score exceeds the 0.1 threshold iff it shares a required capability; hence
at its step of `assign_tasks` a task is assigned iff some still-available
idle agent shares one of its required capabilities. -/
theorem C10_threshold_iff_shared_capability :
    (∀ (a : Agent) (t : Task),
        a.status = AgentStatus.idle → a.capabilities ≠ [] →
        t.required_capabilities ≠ [] →
        t.required_capabilities.filter (fun c => c ∈ a.capabilities) = [] →
        calculate_agent_score a t = 1/10) ∧
    (∀ (a : Agent) (t : Task),
        a.status = AgentStatus.idle → WellFormedAgent a →
        (calculate_agent_score a t > 1/10 ↔
          ∃ c ∈ t.required_capabilities, c ∈ a.capabilities)) ∧
    (∀ (now : ℚ) (s : QFoxController) (pool : List Agent)
        (recs : List AssignmentRecord) (t : Task),
        (∀ a ∈ pool, a.status = AgentStatus.idle ∧ WellFormedAgent a) →
        ((assignStep now (s, pool, recs) t).2.2 ≠ recs ↔
          ∃ a ∈ pool, ∃ c ∈ t.required_capabilities, c ∈ a.capabilities)) := by
  have hiff : ∀ (a : Agent) (t : Task),
      a.status = AgentStatus.idle → WellFormedAgent a →
      (calculate_agent_score a t > 1/10 ↔
        ∃ c ∈ t.required_capabilities, c ∈ a.capabilities) := by
    intro a t hidle hwf
    constructor
    · intro hgt
      by_contra hno
      push_neg at hno
      have hshare :
          t.required_capabilities.filter (fun c => c ∈ a.capabilities) = [] :=
        List.filter_eq_nil_iff.2 (by
          intro c hc
          simpa using hno c hc)
      rcases eq_or_ne a.capabilities [] with hcaps | hcaps
      · unfold calculate_agent_score at hgt
        rw [if_pos (Or.inl hcaps)] at hgt
        norm_num at hgt
      · rcases eq_or_ne t.required_capabilities [] with hreq | hreq
        · unfold calculate_agent_score at hgt
          rw [if_pos (Or.inr hreq)] at hgt
          norm_num at hgt
        · rw [score_no_share_eq hidle hcaps hreq hshare] at hgt
          norm_num at hgt
    · rintro ⟨c, hcr, hca⟩
      exact score_share_gt hidle hwf hcr hca
  refine ⟨fun a t h1 h2 h3 h4 => score_no_share_eq h1 h2 h3 h4, hiff, ?_⟩
  intro now s pool recs t hpool
  constructor
  · intro hne
    by_contra hno
    push_neg at hno
    apply hne
    rw [assignStep_skip (by
      intro a ha
      obtain ⟨hidle, hwf⟩ := hpool a ha
      have : ¬ calculate_agent_score a t > 1/10 := by
        rw [hiff a t hidle hwf]
        push_neg
        intro c hc
        exact hno a ha c hc
      exact not_lt.1 this)]
  · rintro ⟨b, hb, c, hcr, hca⟩
    obtain ⟨hidle, hwf⟩ := hpool b hb
    have hbgt : calculate_agent_score b t > 1/10 :=
      score_share_gt hidle hwf hcr hca
    have hgt : (pickBest pool t).2 > 1/10 :=
      lt_of_lt_of_le hbgt (pickBest_le pool t b hb)
    obtain ⟨a, ha, hae⟩ :
        ∃ a ∈ pool, pickBest pool t = (some a, calculate_agent_score a t) := by
      rcases (pickBestFold_spec t pool (none, 0)).2.2 with he | h
      · rw [pickBest_eq_fold, he] at hgt
        norm_num at hgt
      · rw [pickBest_eq_fold]
        exact h
    have hsc : calculate_agent_score a t > 1/10 := by
      rw [hae] at hgt
      exact hgt
    rw [assignStep_assign hae hsc]
    simp

/-- Idle agent with an empty capability list. -/
def agEmpty : Agent := Agent.make "E" "empty" []

/-- C10 counterexample: an Idle agent with no declared capabilities shares no
capability with task t1 (which has a non-empty requirement list), yet its
score is 0, not the claimed 0.1. -/
theorem C10_counterexample :
    agEmpty.status = AgentStatus.idle ∧
    taskT1.required_capabilities ≠ [] ∧
    taskT1.required_capabilities.filter
      (fun c => c ∈ agEmpty.capabilities) = [] ∧
    calculate_agent_score agEmpty taskT1 = 0 ∧
    calculate_agent_score agEmpty taskT1 ≠ 1/10 := by
  refine ⟨rfl, by decide, by decide, ?_, ?_⟩
  · norm_num [calculate_agent_score, agEmpty, Agent.make, taskT1]
  · norm_num [calculate_agent_score, agEmpty, Agent.make, taskT1]

theorem C10_witness :
    (agA.status = AgentStatus.idle ∧ agA.capabilities ≠ [] ∧
      taskT2.required_capabilities ≠ [] ∧ WellFormedAgent agA ∧
      (∀ a ∈ [agA], a.status = AgentStatus.idle ∧ WellFormedAgent a)) ∧
    (calculate_agent_score agA taskT2 > 1/10 ↔
      ∃ c ∈ taskT2.required_capabilities, c ∈ agA.capabilities) ∧
    ((assignStep 0 (sC4, [agA], []) taskT2).2.2 ≠ [] ↔
      ∃ a ∈ [agA], ∃ c ∈ taskT2.required_capabilities, c ∈ a.capabilities) :=
  ⟨⟨rfl, by decide, by decide,
    by norm_num [WellFormedAgent, agA, Agent.make, seedConfidence, seedHistory],
    by
      intro a ha
      rw [List.mem_singleton] at ha
      subst ha
      exact ⟨rfl, by norm_num [WellFormedAgent, agA, Agent.make,
        seedConfidence, seedHistory]⟩⟩,
   C10_threshold_iff_shared_capability.2.1 agA taskT2 rfl
     (by norm_num [WellFormedAgent, agA, Agent.make, seedConfidence,
       seedHistory]),
   C10_threshold_iff_shared_capability.2.2 0 sC4 [agA] [] taskT2
     (by
       intro a ha
       rw [List.mem_singleton] at ha
       subst ha
       exact ⟨rfl, by norm_num [WellFormedAgent, agA, Agent.make,
         seedConfidence, seedHistory]⟩)⟩

/-! ### Completion / simulation lemmas -/

theorem update_system_metrics_tasks (s : QFoxController) :
    (s.update_system_metrics).tasks = s.tasks := rfl

theorem update_system_metrics_agents (s : QFoxController) :
    (s.update_system_metrics).agents = s.agents := rfl

theorem find?_key_eq_some_of_mem_nodup {α : Type} (key : α → String) :
    ∀ {l : List α} {x : α}, (l.map key).Nodup → x ∈ l →
      l.find? (fun y => key y == key x) = some x := by
  intro l
  induction l with
  | nil => intro x _ hx; cases hx
  | cons y ys ih =>
    intro x hnd hx
    rw [List.map_cons, List.nodup_cons] at hnd
    rcases List.mem_cons.1 hx with rfl | hx
    · rw [List.find?_cons_of_pos _ (by simp)]
    · have hne : (key y == key x) = false := by
        simp only [beq_eq_false_iff_ne, ne_eq]
        intro he
        exact hnd.1 (he ▸ List.mem_map_of_mem _ hx)
      rw [List.find?_cons_of_neg _ (by simp [hne])]
      exact ih hnd.2 hx

theorem getTask_of_mem_nodup {s : QFoxController} {t : Task}
    (hnd : (s.tasks.map (fun t => t.id)).Nodup) (ht : t ∈ s.tasks) :
    s.getTask t.id = some t := by
  unfold QFoxController.getTask
  exact find?_key_eq_some_of_mem_nodup (fun t => t.id) hnd ht

theorem getAgent_of_mem_nodup {s : QFoxController} {a : Agent}
    (hnd : (s.agents.map (fun a => a.id)).Nodup) (ha : a ∈ s.agents) :
    s.getAgent a.id = some a := by
  unfold QFoxController.getAgent
  exact find?_key_eq_some_of_mem_nodup (fun a => a.id) hnd ha

theorem getTask_id_eq {s : QFoxController} {tid : String} {task : Task}
    (h : s.getTask tid = some task) : task.id = tid := by
  have := List.find?_some h
  simpa using this

theorem getTask_mem {s : QFoxController} {tid : String} {task : Task}
    (h : s.getTask tid = some task) : task ∈ s.tasks :=
  List.mem_of_find?_eq_some h

theorem getAgent_id_eq {s : QFoxController} {aid : String} {agent : Agent}
    (h : s.getAgent aid = some agent) : agent.id = aid := by
  have := List.find?_some h
  simpa using this

theorem getAgent_mem {s : QFoxController} {aid : String} {agent : Agent}
    (h : s.getAgent aid = some agent) : agent ∈ s.agents :=
  List.mem_of_find?_eq_some h

theorem processCompletion_getTask_self {s : QFoxController} {tid : String}
    {task : Task} {aid : String} {agent : Agent}
    (ht : s.getTask tid = some task) (ha : task.assigned_agent = some aid)
    (hg : s.getAgent aid = some agent) (success : Bool) (dur now : ℚ) :
    (s.process_task_completion tid success dur now).getTask tid =
      some { task with
        status := if success then TaskStatus.completed else TaskStatus.failed,
        completed_at := some now,
        actual_duration := some dur,
        success_score := some (if success then 1 else 0) } := by
  unfold QFoxController.process_task_completion
  rw [ht]
  dsimp only
  rw [ha]
  dsimp only
  rw [hg]
  dsimp only
  unfold QFoxController.getTask
  rw [update_system_metrics_tasks]
  dsimp only
  rw [← getTask_id_eq ht]
  exact @find?_setTask_self
    { task with
        status := if success then TaskStatus.completed else TaskStatus.failed,
        assigned_agent := some aid,
        completed_at := some now,
        actual_duration := some dur,
        success_score := some (if success then 1 else 0) }
    s.tasks ⟨task, getTask_mem ht, rfl⟩

theorem processCompletion_getTask_ne {s : QFoxController} {tid x : String}
    (h : ¬ tid = x) (success : Bool) (dur now : ℚ) :
    (s.process_task_completion tid success dur now).getTask x =
      s.getTask x := by
  unfold QFoxController.process_task_completion
  cases ht : s.getTask tid with
  | none => rfl
  | some task =>
    dsimp only
    cases ha : task.assigned_agent with
    | none => rfl
    | some aid =>
      dsimp only
      cases hg : s.getAgent aid with
      | none => rfl
      | some agent =>
        dsimp only
        unfold QFoxController.getTask
        rw [update_system_metrics_tasks]
        dsimp only
        exact find?_setTask_ne (by
          have := getTask_id_eq ht
          dsimp only
          rw [this]
          exact h)

theorem simulateLoop_getTask_not_mem (now : ℚ) :
    ∀ (ts : List Task) (s : QFoxController) (us : List ℚ) (x : String),
      x ∉ ts.map (fun t => t.id) →
      (simulateLoop now s ts us).getTask x = s.getTask x := by
  intro ts
  induction ts with
  | nil => intro s us x _; rfl
  | cons t rest ih =>
    intro s us x hx
    rw [List.map_cons, List.mem_cons] at hx
    push_neg at hx
    unfold simulateLoop
    cases t.started_at with
    | none => exact ih s us x hx.2
    | some st =>
      dsimp only
      split
      · cases hag : (match t.assigned_agent with
            | none => none
            | some aid => s.getAgent aid) with
        | none => exact ih s us x hx.2
        | some agent =>
          cases us with
          | nil => rfl
          | cons u us' =>
            dsimp only
            rw [ih _ us' x hx.2]
            exact processCompletion_getTask_ne (fun he => hx.1 he.symm) _ _ _
      · exact ih s us x hx.2

/-- Modelled from the spec: "success probability = (mean confidence over its
required capabilities) × (1 − complexity×0.1)" — the mean over ALL required
capabilities, each read through `get_capability_confidence` (default 0.5 for
a capability the agent never recorded).  To be compared with
`successProbability`, which embeds the source. -/
def specSuccessProbability (agent : Agent) (task : Task) : ℚ :=
  ((task.required_capabilities.map
      (fun c => agent.get_capability_confidence c)).sum /
    (task.required_capabilities.length : ℚ)) *
    (1 - task.complexity * (1/10))

/-- The first InProgress task scanned by the tick, when due and with a live
agent, is completed with outcome `u < successProbability` and the elapsed
time as actual duration. -/
theorem tick_first_task_completion :
    ∀ (s : QFoxController) (now u : ℚ) (us : List ℚ) (t : Task)
      (rest : List Task) (st : ℚ) (aid : String) (a : Agent),
      s.simulation_active = true →
      (s.tasks.map (fun t => t.id)).Nodup →
      s.tasks.filter (fun t => t.status = TaskStatus.in_progress) = t :: rest →
      t.started_at = some st →
      (now - st) / 60 ≥ t.estimated_duration →
      t.assigned_agent = some aid →
      s.getAgent aid = some a →
      (s.simulate_task_execution now (u :: us)).getTask t.id =
        some { t with
          status := if u < successProbability a t then TaskStatus.completed
                    else TaskStatus.failed,
          completed_at := some now,
          actual_duration := some ((now - st) / 60),
          success_score :=
            some (if u < successProbability a t then 1 else 0) } := by
  intro s now u us t rest st aid a hact hnd hfilter hst helapsed hassigned hagent
  have htmem : t ∈ s.tasks := by
    have : t ∈ s.tasks.filter (fun t => t.status = TaskStatus.in_progress) := by
      rw [hfilter]
      exact List.mem_cons_self _ _
    exact (List.mem_filter.1 this).1
  have hnotrest : t.id ∉ rest.map (fun t => t.id) := by
    have hfnd : ((s.tasks.filter
        (fun t => t.status = TaskStatus.in_progress)).map
        (fun t => t.id)).Nodup :=
      hnd.sublist ((List.filter_sublist _).map _)
    rw [hfilter, List.map_cons, List.nodup_cons] at hfnd
    exact hfnd.1
  unfold QFoxController.simulate_task_execution
  rw [if_neg (by rw [hact]; simp)]
  rw [hfilter]
  unfold simulateLoop
  rw [hst]
  dsimp only
  rw [if_pos helapsed, hassigned]
  dsimp only
  rw [hagent]
  dsimp only
  rw [simulateLoop_getTask_not_mem now rest _ us t.id hnotrest]
  have hts : s.getTask t.id = some t := getTask_of_mem_nodup hnd htmem
  rw [processCompletion_getTask_self hts hassigned hagent]
  congr 1
  by_cases hu : u < successProbability a t
  · simp [hu, hassigned, hst]
  · simp [hu, hassigned, hst]

/-- C8 (amended): for the first InProgress task scanned by the tick, when
its elapsed time has reached its estimated duration and its agent exists,
the tick draws one random sample `u` and hands the Completion Processor the
outcome `u < p` together with the elapsed time as actual duration, where the
unclamped probability `p` sums confidences only over the required
capabilities the agent has declared (an undeclared one contributes 0, not
its 0.5 default) and divides by the total number of required capabilities. -/
theorem C8_tick_probability_and_completion :
    ∀ (s : QFoxController) (now u : ℚ) (us : List ℚ) (t : Task)
      (rest : List Task) (st : ℚ) (aid : String) (a : Agent),
      s.simulation_active = true →
      (s.tasks.map (fun t => t.id)).Nodup →
      s.tasks.filter (fun t => t.status = TaskStatus.in_progress) = t :: rest →
      t.started_at = some st →
      (now - st) / 60 ≥ t.estimated_duration →
      t.assigned_agent = some aid →
      s.getAgent aid = some a →
      (s.simulate_task_execution now (u :: us)).getTask t.id =
        some { t with
          status := if u < successProbability a t then TaskStatus.completed
                    else TaskStatus.failed,
          completed_at := some now,
          actual_duration := some ((now - st) / 60),
          success_score :=
            some (if u < successProbability a t then 1 else 0) } ∧
      successProbability a t =
        (((t.required_capabilities.filter (fun c => c ∈ a.capabilities)).map
            (fun c => a.get_capability_confidence c)).sum /
          (t.required_capabilities.length : ℚ)) *
          (1 - t.complexity * (1/10)) :=
  fun s now u us t rest st aid a h1 h2 h3 h4 h5 h6 h7 =>
    ⟨tick_first_task_completion s now u us t rest st aid a h1 h2 h3 h4 h5 h6 h7,
     rfl⟩

/-- Agent with declared capability `"a"` whose stored confidence is 0.8. -/
def agB : Agent :=
  { Agent.make "B" "beta" ["a"] with confidence_scores := [("a", 8/10)] }

/-- InProgress task requiring `["a", "b"]`, assigned to agent B, started at
time 0 with estimated duration 1 minute. -/
def taskT3 : Task :=
  { id := "t3", name := "T3", required_capabilities := ["a", "b"],
    complexity := 1, estimated_duration := 1,
    status := TaskStatus.in_progress, assigned_agent := some "B",
    started_at := some 0 }

/-- Simulation-active controller with that agent and task. -/
def sC8 : QFoxController :=
  { agents := [agB], tasks := [taskT3], simulation_active := true }

/-- C8 counterexample: agent B declares only `"a"` (confidence 0.8) while
task t3 requires `["a", "b"]`.  The claimed probability — the mean of the
agent's confidences over both required capabilities (0.8 and the 0.5
default) times 0.9 — is 0.585, above the draw u = 0.5, so the claim predicts
a success.  The code instead divides only the matched confidence 0.8 by 2,
giving 0.36 < 0.5, and the tick marks the task Failed. -/
theorem C8_counterexample :
    (1/2 : ℚ) < specSuccessProbability agB taskT3 ∧
    successProbability agB taskT3 < (1/2 : ℚ) ∧
    (sC8.simulate_task_execution 60 [1/2]).getTask "t3" =
      some { taskT3 with
             status := TaskStatus.failed,
             completed_at := some 60, actual_duration := some 1,
             success_score := some 0 } := by
  refine ⟨?_, ?_, ?_⟩
  · norm_num [specSuccessProbability, agB, taskT3, Agent.make,
      Agent.get_capability_confidence, lookup_cons_self, seedConfidence,
      (by decide : List.lookup "b" [("a", (4 : ℚ)/5)] = none)]
  · norm_num [successProbability, agB, taskT3, Agent.make,
      Agent.get_capability_confidence, lookup_cons_self, seedConfidence,
      (by decide : List.filter (fun c => decide (c = "a")) ["b"] = [])]
  · have h := tick_first_task_completion sC8 60 (1/2) [] taskT3 [] 0 "B" agB
      rfl (by decide) rfl rfl (by norm_num [taskT3]) rfl rfl
    have hlt : ¬ ((1/2 : ℚ) < successProbability agB taskT3) := by
      norm_num [successProbability, agB, taskT3, Agent.make,
        Agent.get_capability_confidence, lookup_cons_self, seedConfidence,
        (by decide : List.filter (fun c => decide (c = "a")) ["b"] = [])]
    rw [if_neg hlt, if_neg hlt] at h
    rw [show ((60 : ℚ) - 0) / 60 = 1 by norm_num] at h
    exact h

theorem C8_witness :
    (sC8.simulation_active = true ∧
      (sC8.tasks.map (fun t => t.id)).Nodup ∧
      sC8.tasks.filter (fun t => t.status = TaskStatus.in_progress) =
        taskT3 :: [] ∧
      taskT3.started_at = some 0 ∧
      ((60 : ℚ) - 0) / 60 ≥ taskT3.estimated_duration ∧
      taskT3.assigned_agent = some "B" ∧
      sC8.getAgent "B" = some agB) ∧
    ((sC8.simulate_task_execution 60 (1/2 :: [])).getTask taskT3.id =
        some { taskT3 with
          status := if (1/2 : ℚ) < successProbability agB taskT3 then
                      TaskStatus.completed
                    else TaskStatus.failed,
          completed_at := some 60,
          actual_duration := some (((60 : ℚ) - 0) / 60),
          success_score :=
            some (if (1/2 : ℚ) < successProbability agB taskT3 then 1
                  else 0) } ∧
      successProbability agB taskT3 =
        (((taskT3.required_capabilities.filter
            (fun c => c ∈ agB.capabilities)).map
            (fun c => agB.get_capability_confidence c)).sum /
          (taskT3.required_capabilities.length : ℚ)) *
          (1 - taskT3.complexity * (1/10))) :=
  ⟨⟨rfl, by decide, rfl, rfl, by norm_num [taskT3], rfl, rfl⟩,
   C8_tick_probability_and_completion sC8 60 (1/2) [] taskT3 [] 0 "B" agB
     rfl (by decide) rfl rfl (by norm_num [taskT3]) rfl rfl⟩

/-! ### Round-trip machinery (C5) -/

theorem mem_setTask_of_ne {ts : List Task} {t' x : Task}
    (hx : x ∈ ts) (hne : ¬ x.id = t'.id) : x ∈ setTask ts t' := by
  unfold setTask
  exact List.mem_map.2 ⟨x, hx, by rw [if_neg hne]⟩

theorem assignStep_agents_map_id (now : ℚ)
    (st : QFoxController × List Agent × List AssignmentRecord) (t : Task) :
    (assignStep now st t).1.agents.map (fun a => a.id) =
      st.1.agents.map (fun a => a.id) := by
  obtain ⟨s, pool, recs⟩ := st
  rcases hpb : pickBest pool t with ⟨o, sc⟩
  match o, hpb with
  | none, hpb => rw [assignStep_of_pickBest_none hpb]
  | some a, hpb =>
    by_cases hsc : sc > 1/10
    · rw [assignStep_assign hpb hsc]
      exact setAgent_map_id _ _
    · rw [assignStep_of_le hpb hsc]

theorem assignLoop_agents_map_id (now : ℚ) :
    ∀ (ts : List Task)
      (st : QFoxController × List Agent × List AssignmentRecord),
      (assignLoop now st ts).1.agents.map (fun a => a.id) =
        st.1.agents.map (fun a => a.id) := by
  intro ts
  induction ts with
  | nil => intro st; rfl
  | cons t rest ih =>
    intro st
    rw [assignLoop_cons, ih, assignStep_agents_map_id]

theorem getAgent_isSome_of_id_mem {s : QFoxController} {x : String}
    (h : x ∈ s.agents.map (fun a => a.id)) : (s.getAgent x).isSome := by
  rcases List.mem_map.1 h with ⟨a, ha, rfl⟩
  unfold QFoxController.getAgent
  rw [List.find?_isSome]
  exact ⟨a, ha, by simp⟩

theorem assignLoop_records_final (now : ℚ) :
    ∀ (ts : List Task)
      (st : QFoxController × List Agent × List AssignmentRecord),
      (∀ t ∈ ts, t ∈ st.1.tasks) →
      (ts.map (fun t => t.id)).Nodup →
      ∃ Δ, (assignLoop now st ts).2.2 = st.2.2 ++ Δ ∧
        ∀ r ∈ Δ,
          ∃ T, (assignLoop now st ts).1.getTask r.task_id = some T ∧
            T.status = TaskStatus.in_progress ∧
            T.assigned_agent = some r.agent_id ∧
            T.started_at = some now := by
  intro ts
  induction ts with
  | nil =>
    intro st _ _
    exact ⟨[], by simp [assignLoop], by simp⟩
  | cons t rest ih =>
    rintro ⟨s, pool, recs⟩ hmem hnd
    rw [List.map_cons, List.nodup_cons] at hnd
    rw [assignLoop_cons]
    rcases hpb : pickBest pool t with ⟨o, sc⟩
    match o, hpb with
    | none, hpb =>
      rw [assignStep_of_pickBest_none hpb]
      exact ih (s, pool, recs)
        (fun x hx => hmem x (List.mem_cons_of_mem _ hx)) hnd.2
    | some a, hpb =>
      by_cases hsc : sc > 1/10
      · rw [assignStep_assign hpb hsc]
        have htin : t ∈ s.tasks := hmem t (List.mem_cons_self _ _)
        obtain ⟨Δ', h1, h2⟩ := ih
          ({ s with
              tasks := setTask s.tasks
                { t with assigned_agent := some a.id,
                         status := TaskStatus.in_progress,
                         started_at := some now },
              agents := setAgent s.agents
                { a with current_task := some t.id,
                         status := AgentStatus.busy },
              assignment_history := s.assignment_history ++
                [{ task_id := t.id, agent_id := a.id, score := sc,
                   timestamp := now }] },
           removeFirst pool a,
           recs ++ [{ task_id := t.id, agent_id := a.id, score := sc,
                      timestamp := now }])
          (by
            intro x hx
            dsimp only
            exact mem_setTask_of_ne (hmem x (List.mem_cons_of_mem _ hx))
              (fun he => hnd.1 (he ▸ List.mem_map_of_mem _ hx)))
          hnd.2
        refine ⟨{ task_id := t.id, agent_id := a.id, score := sc,
                  timestamp := now } :: Δ', ?_, ?_⟩
        · rw [h1]
          simp
        · intro r hr
          rcases List.mem_cons.1 hr with rfl | hr
          · refine ⟨{ t with
                        assigned_agent := some a.id,
                        status := TaskStatus.in_progress,
                        started_at := some now },
              ?_, rfl, rfl, rfl⟩
            rw [assignLoop_getTask_not_mem now rest _ _ hnd.1]
            unfold QFoxController.getTask
            dsimp only
            exact @find?_setTask_self
              { t with assigned_agent := some a.id,
                       status := TaskStatus.in_progress,
                       started_at := some now } s.tasks ⟨t, htin, rfl⟩
          · exact h2 r hr
      · rw [assignStep_of_le hpb hsc]
        exact ih (s, pool, recs)
          (fun x hx => hmem x (List.mem_cons_of_mem _ hx)) hnd.2

theorem record_performance_id (a : Agent) (task_id : String) (success : Bool)
    (duration complexity : ℚ) (caps : List String) (now : ℚ) :
    (a.record_performance task_id success duration complexity caps now).id =
      a.id := by
  unfold Agent.record_performance
  dsimp only
  split <;> split <;> rfl

theorem foldl_update_confidence_id (o : ℤ) :
    ∀ (caps : List String) (a : Agent),
      (caps.foldl (fun a c => a.update_confidence c o) a).id = a.id := by
  intro caps
  induction caps with
  | nil => intro a; rfl
  | cons c cs ih =>
    intro a
    rw [List.foldl_cons, ih, update_confidence_id]

theorem processCompletion_getAgent_self {s : QFoxController} {tid : String}
    {task : Task} {aid : String} {agent : Agent}
    (ht : s.getTask tid = some task) (ha : task.assigned_agent = some aid)
    (hg : s.getAgent aid = some agent) (success : Bool) (dur now : ℚ) :
    ∃ A, (s.process_task_completion tid success dur now).getAgent aid =
        some A ∧
      A.status = AgentStatus.idle ∧ A.current_task = none := by
  unfold QFoxController.process_task_completion
  rw [ht]
  dsimp only
  rw [ha]
  dsimp only
  rw [hg]
  dsimp only
  refine ⟨{ (task.required_capabilities.foldl
      (fun a c => a.update_confidence c (if success then 1 else 0))
      agent).record_performance tid success dur task.complexity
      task.required_capabilities now with
      current_task := none, status := AgentStatus.idle }, ?_, rfl, rfl⟩
  unfold QFoxController.getAgent
  rw [update_system_metrics_agents]
  dsimp only
  have hid :
      (({ (task.required_capabilities.foldl
            (fun a c => a.update_confidence c (if success then 1 else 0))
            agent).record_performance tid success dur task.complexity
            task.required_capabilities now with
          current_task := none, status := AgentStatus.idle } : Agent)).id =
        aid := by
    show (((task.required_capabilities.foldl
        (fun a c => a.update_confidence c (if success then 1 else 0))
        agent).record_performance tid success dur task.complexity
        task.required_capabilities now)).id = aid
    rw [record_performance_id, foldl_update_confidence_id]
    exact getAgent_id_eq hg
  rw [← hid]
  exact find?_setAgent_self
    ⟨agent, getAgent_mem hg, by rw [hid]; exact getAgent_id_eq hg⟩

theorem assign_tasks_record_state {s₁ : QFoxController} {now₁ : ℚ}
    {r : AssignmentRecord}
    (hnd₁ : (s₁.tasks.map (fun t => t.id)).Nodup)
    (hr : r ∈ (s₁.assign_tasks now₁).2) :
    (∃ T, (s₁.assign_tasks now₁).1.getTask r.task_id = some T ∧
      T.status = TaskStatus.in_progress ∧
      T.assigned_agent = some r.agent_id ∧
      T.started_at = some now₁) ∧
    ((s₁.assign_tasks now₁).1.getAgent r.agent_id).isSome := by
  unfold QFoxController.assign_tasks at hr ⊢
  dsimp only at hr ⊢
  by_cases hc :
      s₁.tasks.filter (fun t => t.status = TaskStatus.pending) = [] ∨
      s₁.agents.filter (fun a => a.status = AgentStatus.idle) = []
  · rw [if_pos hc] at hr
    cases hr
  · rw [if_neg hc] at hr ⊢
    dsimp only at hr ⊢
    have hsortmem : ∀ t ∈ sortByPriority
        (s₁.tasks.filter (fun t => t.status = TaskStatus.pending)),
        t ∈ s₁.tasks :=
      fun t ht => (mem_sortedPending.1 ht).1
    obtain ⟨Δ, hΔ, hfin⟩ := assignLoop_records_final now₁
      (sortByPriority (s₁.tasks.filter (fun t => t.status = TaskStatus.pending)))
      (s₁, s₁.agents.filter (fun a => a.status = AgentStatus.idle), [])
      hsortmem (sortedPending_ids_nodup hnd₁)
    rw [hΔ, List.nil_append] at hr
    refine ⟨hfin r hr, ?_⟩
    obtain ⟨Δ₂, hΔ₂, hprop, -⟩ := assignLoop_records_spec now₁
      (sortByPriority (s₁.tasks.filter (fun t => t.status = TaskStatus.pending)))
      (s₁, s₁.agents.filter (fun a => a.status = AgentStatus.idle), [])
    have hΔeq : Δ₂ = Δ := by
      rw [hΔ] at hΔ₂
      simpa using hΔ₂.symm
    obtain ⟨-, a, hap, hae⟩ := hprop r (by rw [hΔeq]; exact hr)
    apply getAgent_isSome_of_id_mem
    rw [assignLoop_agents_map_id]
    dsimp only
    rw [hae]
    exact List.mem_map_of_mem _ (List.mem_filter.1 hap).1

/-- C5: a task that is created, then bound to an agent by `assign_tasks`
(witnessed by the returned assignment record), then completed with
`success=True`, ends Completed with `assigned_agent` still that agent's id
and `success_score = 1.0`, while the agent is back to Idle with
`current_task = None`. -/
theorem C5_create_assign_complete_round_trip :
    ∀ (s₀ : QFoxController) (tid nm ds : String) (reqs : List String)
      (cx pr est now₀ now₁ dur now₂ : ℚ) (r : AssignmentRecord),
      (s₀.tasks.map (fun t => t.id)).Nodup →
      tid ∉ s₀.tasks.map (fun t => t.id) →
      r ∈ ((s₀.create_task tid nm ds reqs cx pr est now₀).1.assign_tasks
        now₁).2 →
      r.task_id = tid →
      ∃ T A,
        (((s₀.create_task tid nm ds reqs cx pr est now₀).1.assign_tasks
            now₁).1.process_task_completion r.task_id true dur
            now₂).getTask r.task_id = some T ∧
        T.status = TaskStatus.completed ∧
        T.assigned_agent = some r.agent_id ∧
        T.success_score = some 1 ∧
        (((s₀.create_task tid nm ds reqs cx pr est now₀).1.assign_tasks
            now₁).1.process_task_completion r.task_id true dur
            now₂).getAgent r.agent_id = some A ∧
        A.status = AgentStatus.idle ∧ A.current_task = none := by
  intro s₀ tid nm ds reqs cx pr est now₀ now₁ dur now₂ r hnd hfresh hr _
  have hnd₁ : (((s₀.create_task tid nm ds reqs cx pr est now₀).1.tasks).map
      (fun t => t.id)).Nodup := by
    unfold QFoxController.create_task
    dsimp only
    rw [List.map_append]
    rw [List.nodup_append]
    refine ⟨hnd, List.nodup_singleton _, ?_⟩
    intro x hx hmm
    rcases List.mem_singleton.1 hmm with rfl
    exact hfresh hx
  obtain ⟨⟨T, hT, hTst, hTa, hTstart⟩, hA⟩ := assign_tasks_record_state hnd₁ hr
  obtain ⟨agent, hg⟩ := Option.isSome_iff_exists.1 hA
  obtain ⟨A, hgA, hAidle, hAnone⟩ :=
    processCompletion_getAgent_self hT hTa hg true dur now₂
  refine ⟨{ T with
      status := if true then TaskStatus.completed else TaskStatus.failed,
      completed_at := some now₂,
      actual_duration := some dur,
      success_score := some (if true then 1 else 0) }, A,
    processCompletion_getTask_self hT hTa hg true dur now₂, by simp, ?_, by simp,
    hgA, hAidle, hAnone⟩
  exact hTa

/-- Controller with the single idle agent A and no tasks. -/
def sC5 : QFoxController := { agents := [agA] }

theorem C5_witness :
    ((sC5.tasks.map (fun t => t.id)).Nodup ∧
      "t1" ∉ sC5.tasks.map (fun t => t.id) ∧
      ({ task_id := "t1", agent_id := "A", score := 3/4,
         timestamp := 0 } : AssignmentRecord) ∈
        ((sC5.create_task "t1" "T1" "" ["x"] 1 9 1 0).1.assign_tasks 0).2 ∧
      ({ task_id := "t1", agent_id := "A", score := 3/4,
         timestamp := 0 } : AssignmentRecord).task_id = "t1") ∧
    (∃ T A,
      (((sC5.create_task "t1" "T1" "" ["x"] 1 9 1 0).1.assign_tasks
          0).1.process_task_completion
          ({ task_id := "t1", agent_id := "A", score := 3/4,
             timestamp := 0 } : AssignmentRecord).task_id true 2
          120).getTask
        ({ task_id := "t1", agent_id := "A", score := 3/4,
           timestamp := 0 } : AssignmentRecord).task_id = some T ∧
      T.status = TaskStatus.completed ∧
      T.assigned_agent = some ({ task_id := "t1", agent_id := "A",
                                 score := 3/4,
                                 timestamp := 0 } : AssignmentRecord).agent_id ∧
      T.success_score = some 1 ∧
      (((sC5.create_task "t1" "T1" "" ["x"] 1 9 1 0).1.assign_tasks
          0).1.process_task_completion
          ({ task_id := "t1", agent_id := "A", score := 3/4,
             timestamp := 0 } : AssignmentRecord).task_id true 2
          120).getAgent
        ({ task_id := "t1", agent_id := "A", score := 3/4,
           timestamp := 0 } : AssignmentRecord).agent_id = some A ∧
      A.status = AgentStatus.idle ∧ A.current_task = none) :=
  ⟨⟨by decide, by decide,
    by
      norm_num [QFoxController.create_task, QFoxController.assign_tasks,
        assignLoop, assignStep, pickBest, calculate_agent_score,
        sortByPriority, List.insertionSort, List.orderedInsert, sC5, agA,
        Agent.make, seedConfidence, seedHistory,
        Agent.get_capability_confidence, Agent.get_success_rate, setTask,
        setAgent, removeFirst, lookup_cons_self, List.cons_ne_nil,
        String.reduceEq, reduceCtorEq],
    rfl⟩,
   C5_create_assign_complete_round_trip sC5 "t1" "T1" "" ["x"] 1 9 1 0 0 2 120
     { task_id := "t1", agent_id := "A", score := 3/4, timestamp := 0 }
     (by decide) (by decide)
     (by
       norm_num [QFoxController.create_task, QFoxController.assign_tasks,
         assignLoop, assignStep, pickBest, calculate_agent_score,
         sortByPriority, List.insertionSort, List.orderedInsert, sC5, agA,
         Agent.make, seedConfidence, seedHistory,
         Agent.get_capability_confidence, Agent.get_success_rate, setTask,
         setAgent, removeFirst, lookup_cons_self, List.cons_ne_nil,
         String.reduceEq, reduceCtorEq])
     rfl⟩

/-! ### Data-model invariant (C1) -/

/-- The claim's stated invariant, as an executable check: `assigned_agent`
is non-null iff status ∈ {InProgress, Completed, Failed}; `current_task` is
non-null iff the agent is Busy, and then exactly one InProgress task bears
that id. -/
def statedInvB (s : QFoxController) : Bool :=
  s.tasks.all (fun t =>
    t.assigned_agent.isSome ==
      (t.status == TaskStatus.in_progress ||
       t.status == TaskStatus.completed ||
       t.status == TaskStatus.failed)) &&
  s.agents.all (fun a =>
    (a.current_task.isSome == (a.status == AgentStatus.busy)) &&
    (match a.current_task with
     | none => true
     | some tid =>
       s.tasks.countP (fun t =>
         t.id == tid && t.status == TaskStatus.in_progress) == 1))

/-- Task-side clause of the invariant. -/
def taskConsistent (t : Task) : Prop :=
  t.assigned_agent.isSome ↔
    (t.status = TaskStatus.in_progress ∨ t.status = TaskStatus.completed ∨
     t.status = TaskStatus.failed)

instance (t : Task) : Decidable (taskConsistent t) := by
  unfold taskConsistent; infer_instance

/-- Strengthened agent pointer clause: the pointed task exists, is
InProgress, and its `assigned_agent` is this agent. -/
def agentPtr (s : QFoxController) (a : Agent) : Option String → Prop
  | none => True
  | some tid => ∃ t ∈ s.tasks, t.id = tid ∧
      t.status = TaskStatus.in_progress ∧ t.assigned_agent = some a.id

instance (s : QFoxController) (a : Agent) :
    (o : Option String) → Decidable (agentPtr s a o)
  | none => Decidable.isTrue trivial
  | some tid => inferInstanceAs (Decidable (∃ t ∈ s.tasks, t.id = tid ∧
      t.status = TaskStatus.in_progress ∧ t.assigned_agent = some a.id))

/-- The strengthened (inductive) invariant: unique ids, the stated task
clause, and for every Busy agent a pointed-to InProgress task whose
`assigned_agent` is that agent.  It implies the stated invariant. -/
def StrongInv (s : QFoxController) : Prop :=
  (s.tasks.map (fun t => t.id)).Nodup ∧
  (s.agents.map (fun a => a.id)).Nodup ∧
  (∀ t ∈ s.tasks, taskConsistent t) ∧
  (∀ a ∈ s.agents,
    (a.current_task.isSome ↔ a.status = AgentStatus.busy) ∧
    agentPtr s a a.current_task)

instance (s : QFoxController) : Decidable (StrongInv s) := by
  unfold StrongInv; infer_instance

/-- Busy agent with current task `"t"`. -/
def agC1A : Agent :=
  { Agent.make "A" "a" ["x"] with
      status := AgentStatus.busy,
      current_task := some "t" }

/-- A second Busy agent pointing at the same task `"t"`. -/
def agC1B : Agent :=
  { Agent.make "B" "b" ["x"] with
      status := AgentStatus.busy,
      current_task := some "t" }

/-- InProgress task assigned to agent A. -/
def taskC1 : Task :=
  { id := "t", required_capabilities := ["x"],
    status := TaskStatus.in_progress, assigned_agent := some "A" }

/-- State where A and B are both Busy on task `"t"` (which is assigned to
A).  It satisfies the claim's stated invariant. -/
def sC1 : QFoxController := { agents := [agC1A, agC1B], tasks := [taskC1] }

/-- C1 counterexample: `sC1` satisfies the stated invariant, but
`remove_agent "A"` reverts task `"t"` to Pending while agent B stays Busy
pointing at it, so the stated invariant does not survive the operation —
it is not inductive as claimed. -/
theorem C1_counterexample :
    statedInvB sC1 = true ∧ statedInvB (sC1.remove_agent "A").1 = false :=
  ⟨rfl, rfl⟩

theorem mem_setTask_cases {ts : List Task} {t' x : Task}
    (h : x ∈ setTask ts t') :
    x = t' ∨ (x ∈ ts ∧ ¬ x.id = t'.id) := by
  unfold setTask at h
  rcases List.mem_map.1 h with ⟨y, hy, he⟩
  by_cases hyt : y.id = t'.id
  · left; rw [← he, if_pos hyt]
  · right
    rw [← he, if_neg hyt]
    exact ⟨hy, hyt⟩

theorem mem_setAgent_cases {as_ : List Agent} {a' x : Agent}
    (h : x ∈ setAgent as_ a') :
    x = a' ∨ (x ∈ as_ ∧ ¬ x.id = a'.id) := by
  unfold setAgent at h
  rcases List.mem_map.1 h with ⟨y, hy, he⟩
  by_cases hya : y.id = a'.id
  · left; rw [← he, if_pos hya]
  · right
    rw [← he, if_neg hya]
    exact ⟨hy, hya⟩

theorem mem_setAgent_of_ne {as_ : List Agent} {a' x : Agent}
    (hx : x ∈ as_) (hne : ¬ x.id = a'.id) : x ∈ setAgent as_ a' := by
  unfold setAgent
  exact List.mem_map.2 ⟨x, hx, by rw [if_neg hne]⟩

theorem task_eq_of_id_eq {s : QFoxController}
    (hnd : (s.tasks.map (fun t => t.id)).Nodup) {t1 t2 : Task}
    (h1 : t1 ∈ s.tasks) (h2 : t2 ∈ s.tasks) (he : t1.id = t2.id) : t1 = t2 :=
  List.inj_on_of_nodup_map hnd h1 h2 he

/-- `create_task` preserves the strengthened invariant when the generated
uuid is fresh. -/
theorem strongInv_create_task {s : QFoxController} (h : StrongInv s)
    {tid : String} (hfresh : tid ∉ s.tasks.map (fun t => t.id))
    (nm ds : String) (reqs : List String) (cx pr est now₀ : ℚ) :
    StrongInv (s.create_task tid nm ds reqs cx pr est now₀).1 := by
  obtain ⟨hndT, hndA, hT, hA⟩ := h
  unfold QFoxController.create_task
  dsimp only
  unfold StrongInv
  refine ⟨?_, hndA, ?_, ?_⟩
  · dsimp only
    rw [List.map_append, List.nodup_append]
    refine ⟨hndT, List.nodup_singleton _, ?_⟩
    intro x hx hmm
    rcases List.mem_singleton.1 hmm with rfl
    exact hfresh hx
  · intro t ht
    rcases List.mem_append.1 ht with ht | ht
    · exact hT t ht
    · rcases List.mem_singleton.1 ht with rfl
      simp [taskConsistent]
  · intro a ha
    refine ⟨(hA a ha).1, ?_⟩
    have hptr := (hA a ha).2
    cases hc : a.current_task with
    | none => trivial
    | some tid' =>
      rw [hc] at hptr
      obtain ⟨t, htm, h1, h2, h3⟩ := hptr
      exact ⟨t, List.mem_append_left _ htm, h1, h2, h3⟩

/-- `remove_agent` preserves the strengthened invariant. -/
theorem strongInv_remove_agent {s : QFoxController} (h : StrongInv s)
    (aid : String) : StrongInv (s.remove_agent aid).1 := by
  obtain ⟨hndT, hndA, hT, hA⟩ := h
  unfold QFoxController.remove_agent
  cases hg : s.getAgent aid with
  | none => exact ⟨hndT, hndA, hT, hA⟩
  | some agent =>
    dsimp only
    have hagmem : agent ∈ s.agents := getAgent_mem hg
    have hagid : agent.id = aid := getAgent_id_eq hg
    have hfilternd :
        ((s.agents.filter (fun a => ¬ a.id = aid)).map
          (fun a => a.id)).Nodup :=
      hndA.sublist ((List.filter_sublist _).map _)
    have hagentSide :
        ∀ (ts' : List Task),
          (∀ b ∈ s.agents, ¬ b.id = aid → ∀ btid,
            b.current_task = some btid →
            ∃ t ∈ ts', t.id = btid ∧ t.status = TaskStatus.in_progress ∧
              t.assigned_agent = some b.id) →
          ∀ b ∈ s.agents.filter (fun a => ¬ a.id = aid),
            (b.current_task.isSome ↔ b.status = AgentStatus.busy) ∧
            agentPtr
              { s with
                  tasks := ts',
                  agents := s.agents.filter (fun a => ¬ a.id = aid) }
              b b.current_task := by
      intro ts' hptr b hb
      have hbmem : b ∈ s.agents := (List.mem_filter.1 hb).1
      have hbne : ¬ b.id = aid := by simpa using (List.mem_filter.1 hb).2
      refine ⟨(hA b hbmem).1, ?_⟩
      cases hbc : b.current_task with
      | none => trivial
      | some btid => exact hptr b hbmem hbne btid hbc
    cases hc : agent.current_task with
    | none =>
      refine ⟨hndT, hfilternd, hT, ?_⟩
      apply hagentSide
      intro b hb _ btid hbc
      have hptr := (hA b hb).2
      rw [hbc] at hptr
      exact hptr
    | some tid =>
      dsimp only
      cases hgt : s.getTask tid with
      | none =>
        refine ⟨hndT, hfilternd, hT, ?_⟩
        apply hagentSide
        intro b hb _ btid hbc
        have hptr := (hA b hb).2
        rw [hbc] at hptr
        exact hptr
      | some task =>
        have htaskmem : task ∈ s.tasks := getTask_mem hgt
        have htaskid : task.id = tid := getTask_id_eq hgt
        have htaskassigned : task.assigned_agent = some agent.id := by
          have hptr := (hA agent hagmem).2
          rw [hc] at hptr
          obtain ⟨t, htm, h1, h2, h3⟩ := hptr
          have : t = task := task_eq_of_id_eq hndT htm htaskmem
            (by rw [h1, htaskid])
          rw [← this]
          exact h3
        refine ⟨?_, hfilternd, ?_, ?_⟩
        · rw [setTask_map_id]
          exact hndT
        · intro t ht
          rcases mem_setTask ht with rfl | ht
          · simp [taskConsistent]
          · exact hT t ht
        · apply hagentSide
          intro b hb hbne btid hbc
          have hptr := (hA b hb).2
          rw [hbc] at hptr
          obtain ⟨tb, htbm, h1, h2, h3⟩ := hptr
          have htbne : ¬ tb.id =
              ({ task with
                  status := TaskStatus.pending,
                  assigned_agent := none } : Task).id := by
            show ¬ tb.id = task.id
            intro he
            have : tb = task := task_eq_of_id_eq hndT htbm htaskmem he
            rw [this] at h3
            rw [htaskassigned] at h3
            apply hbne
            rw [← hagid]
            exact (Option.some.injEq .. ▸ h3 : agent.id = b.id).symm
          exact ⟨tb, mem_setTask_of_ne htbm htbne, h1, h2, h3⟩

/-- `remove_task` preserves the strengthened invariant. -/
theorem strongInv_remove_task {s : QFoxController} (h : StrongInv s)
    (tid : String) : StrongInv (s.remove_task tid).1 := by
  obtain ⟨hndT, hndA, hT, hA⟩ := h
  unfold QFoxController.remove_task
  cases hgt : s.getTask tid with
  | none => exact ⟨hndT, hndA, hT, hA⟩
  | some task =>
    dsimp only
    have htaskmem : task ∈ s.tasks := getTask_mem hgt
    have htaskid : task.id = tid := getTask_id_eq hgt
    have hndT' : ((s.tasks.filter (fun t => ¬ t.id = tid)).map
        (fun t => t.id)).Nodup :=
      hndT.sublist ((List.filter_sublist _).map _)
    have hTsub : ∀ t ∈ s.tasks.filter (fun t => ¬ t.id = tid),
        taskConsistent t :=
      fun t ht => hT t (List.mem_filter.1 ht).1
    cases ha : task.assigned_agent with
    | none =>
      refine ⟨hndT', hndA, hTsub, ?_⟩
      intro b hb
      refine ⟨(hA b hb).1, ?_⟩
      cases hbc : b.current_task with
      | none => trivial
      | some btid =>
        have hptr := (hA b hb).2
        rw [hbc] at hptr
        obtain ⟨tb, htbm, h1, h2, h3⟩ := hptr
        have htbne : ¬ tb.id = tid := by
          intro he
          have heq : tb = task := task_eq_of_id_eq hndT htbm htaskmem
            (he.trans htaskid.symm)
          rw [heq, ha] at h3
          cases h3
        exact ⟨tb, List.mem_filter.2 ⟨htbm, by simpa using htbne⟩, h1, h2, h3⟩
    | some aid =>
      dsimp only
      cases hga : s.getAgent aid with
      | none =>
        refine ⟨hndT', hndA, hTsub, ?_⟩
        intro b hb
        refine ⟨(hA b hb).1, ?_⟩
        cases hbc : b.current_task with
        | none => trivial
        | some btid =>
          have hptr := (hA b hb).2
          rw [hbc] at hptr
          obtain ⟨tb, htbm, h1, h2, h3⟩ := hptr
          have htbne : ¬ tb.id = tid := by
            intro he
            have heq : tb = task := task_eq_of_id_eq hndT htbm htaskmem
              (he.trans htaskid.symm)
            rw [heq, ha] at h3
            have hbid : aid = b.id := Option.some.inj h3
            have hsome : (s.getAgent aid).isSome :=
              getAgent_isSome_of_id_mem
                (by rw [hbid]; exact List.mem_map_of_mem _ hb)
            rw [hga] at hsome
            simp at hsome
          exact ⟨tb, List.mem_filter.2 ⟨htbm, by simpa using htbne⟩,
            h1, h2, h3⟩
      | some agent =>
        dsimp only
        have hagid : agent.id = aid := getAgent_id_eq hga
        refine ⟨hndT', ?_, hTsub, ?_⟩
        · rw [setAgent_map_id]
          exact hndA
        · intro b hb
          rcases mem_setAgent_cases hb with rfl | ⟨hbm, hbne⟩
          · exact ⟨by simp, trivial⟩
          · refine ⟨(hA b hbm).1, ?_⟩
            cases hbc : b.current_task with
            | none => trivial
            | some btid =>
              have hptr := (hA b hbm).2
              rw [hbc] at hptr
              obtain ⟨tb, htbm, h1, h2, h3⟩ := hptr
              have htbne : ¬ tb.id = tid := by
                intro he
                have heq : tb = task := task_eq_of_id_eq hndT htbm htaskmem
                  (he.trans htaskid.symm)
                rw [heq, ha] at h3
                apply hbne
                show b.id = agent.id
                rw [hagid]
                exact (Option.some.inj h3).symm
              exact ⟨tb, List.mem_filter.2 ⟨htbm, by simpa using htbne⟩,
                h1, h2, h3⟩

theorem strongInv_update_metrics {s : QFoxController} (h : StrongInv s) :
    StrongInv s.update_system_metrics := by
  obtain ⟨h1, h2, h3, h4⟩ := h
  exact ⟨h1, h2, h3, fun a ha => h4 a ha⟩

/-- `process_task_completion` preserves the strengthened invariant. -/
theorem strongInv_process_completion {s : QFoxController} (h : StrongInv s)
    (tid : String) (success : Bool) (dur now : ℚ) :
    StrongInv (s.process_task_completion tid success dur now) := by
  obtain ⟨hndT, hndA, hT, hA⟩ := h
  unfold QFoxController.process_task_completion
  cases ht : s.getTask tid with
  | none => exact ⟨hndT, hndA, hT, hA⟩
  | some task =>
    dsimp only
    cases ha : task.assigned_agent with
    | none => exact ⟨hndT, hndA, hT, hA⟩
    | some aid =>
      dsimp only
      cases hg : s.getAgent aid with
      | none => exact ⟨hndT, hndA, hT, hA⟩
      | some agent =>
        dsimp only
        have htaskmem : task ∈ s.tasks := getTask_mem ht
        have htaskid : task.id = tid := getTask_id_eq ht
        have hagid'' :
            (({ (task.required_capabilities.foldl
                (fun a c => a.update_confidence c (if success then 1 else 0))
                agent).record_performance tid success dur task.complexity
                task.required_capabilities now with
              current_task := none, status := AgentStatus.idle } : Agent)).id =
              aid := by
          show (((task.required_capabilities.foldl
              (fun a c => a.update_confidence c (if success then 1 else 0))
              agent).record_performance tid success dur task.complexity
              task.required_capabilities now)).id = aid
          rw [record_performance_id, foldl_update_confidence_id]
          exact getAgent_id_eq hg
        apply strongInv_update_metrics
        refine ⟨?_, ?_, ?_, ?_⟩
        · dsimp only
          rw [setTask_map_id]
          exact hndT
        · dsimp only
          rw [setAgent_map_id]
          exact hndA
        · intro t htm
          rcases mem_setTask_cases htm with rfl | ⟨htm, _⟩
          · unfold taskConsistent
            cases success <;> simp
          · exact hT t htm
        · intro b hb
          rcases mem_setAgent_cases hb with rfl | ⟨hbm, hbne⟩
          · exact ⟨by simp, trivial⟩
          · refine ⟨(hA b hbm).1, ?_⟩
            cases hbc : b.current_task with
            | none => trivial
            | some btid =>
              have hptr := (hA b hbm).2
              rw [hbc] at hptr
              obtain ⟨tb, htbm, h1, h2, h3⟩ := hptr
              have htbne : ¬ tb.id =
                  ({ task with
                      status := if success then TaskStatus.completed
                                else TaskStatus.failed,
                      completed_at := some now,
                      actual_duration := some dur,
                      success_score :=
                        some (if success then 1 else 0) } : Task).id := by
                show ¬ tb.id = task.id
                intro he
                have heq : tb = task := task_eq_of_id_eq hndT htbm htaskmem he
                rw [heq, ha] at h3
                apply hbne
                rw [hagid'']
                exact (Option.some.inj h3).symm
              exact ⟨tb, mem_setTask_of_ne htbm htbne, h1, h2, h3⟩

/-- The `assign_tasks` loop preserves the strengthened invariant when the
pool is a duplicate-free sub-collection of Idle registered agents and the
worklist is a duplicate-free collection of Pending registered tasks. -/
theorem strongInv_assignLoop (now : ℚ) :
    ∀ (ts : List Task)
      (st : QFoxController × List Agent × List AssignmentRecord),
      StrongInv st.1 →
      (∀ a ∈ st.2.1, a ∈ st.1.agents ∧ a.status = AgentStatus.idle) →
      (st.2.1.map (fun a => a.id)).Nodup →
      (∀ t ∈ ts, t ∈ st.1.tasks ∧ t.status = TaskStatus.pending) →
      (ts.map (fun t => t.id)).Nodup →
      StrongInv (assignLoop now st ts).1 := by
  intro ts
  induction ts with
  | nil => intro st h _ _ _ _; exact h
  | cons t rest ih =>
    rintro ⟨s, pool, recs⟩ hinv hpool hpoolnd hts htsnd
    rw [List.map_cons, List.nodup_cons] at htsnd
    rw [assignLoop_cons]
    rcases hpb : pickBest pool t with ⟨o, sc⟩
    match o, hpb with
    | none, hpb =>
      rw [assignStep_of_pickBest_none hpb]
      exact ih (s, pool, recs) hinv hpool hpoolnd
        (fun x hx => hts x (List.mem_cons_of_mem _ hx)) htsnd.2
    | some a, hpb =>
      by_cases hsc : sc > 1/10
      · rw [assignStep_assign hpb hsc]
        obtain ⟨hamem_pool, -⟩ := pickBest_eq_some hpb
        obtain ⟨hamem, -⟩ := hpool a hamem_pool
        obtain ⟨htmem, htpend⟩ := hts t (List.mem_cons_self _ _)
        obtain ⟨hndT, hndA, hT, hA⟩ := hinv
        apply ih
        · refine ⟨?_, ?_, ?_, ?_⟩
          · dsimp only
            rw [setTask_map_id]
            exact hndT
          · dsimp only
            rw [setAgent_map_id]
            exact hndA
          · intro x hx
            rcases mem_setTask_cases hx with rfl | ⟨hx, _⟩
            · simp [taskConsistent]
            · exact hT x hx
          · intro b hb
            rcases mem_setAgent_cases hb with rfl | ⟨hbm, hbne⟩
            · refine ⟨by simp, ?_⟩
              exact ⟨{ t with
                        assigned_agent := some a.id,
                        status := TaskStatus.in_progress,
                        started_at := some now },
                self_mem_setTask ⟨t, htmem, rfl⟩, rfl, rfl, rfl⟩
            · refine ⟨(hA b hbm).1, ?_⟩
              cases hbc : b.current_task with
              | none => trivial
              | some btid =>
                have hptr := (hA b hbm).2
                rw [hbc] at hptr
                obtain ⟨tb, htbm, h1, h2, h3⟩ := hptr
                have htbne : ¬ tb.id =
                    ({ t with
                        assigned_agent := some a.id,
                        status := TaskStatus.in_progress,
                        started_at := some now } : Task).id := by
                  show ¬ tb.id = t.id
                  intro he
                  have heq : tb = t := task_eq_of_id_eq hndT htbm htmem he
                  rw [heq, htpend] at h2
                  cases h2
                exact ⟨tb, mem_setTask_of_ne htbm htbne, h1, h2, h3⟩
        · intro p hp
          have hpm := mem_of_mem_removeFirst hp
          obtain ⟨hpmem, hpidle⟩ := hpool p hpm
          have hpne : p.id ≠ a.id := mem_removeFirst_ne_id hpoolnd hamem_pool hp
          exact ⟨mem_setAgent_of_ne hpmem hpne, hpidle⟩
        · exact removeFirst_ids_nodup hpoolnd
        · intro x hx
          obtain ⟨hxm, hxp⟩ := hts x (List.mem_cons_of_mem _ hx)
          have hxne : ¬ x.id = t.id :=
            fun he => htsnd.1 (he ▸ List.mem_map_of_mem _ hx)
          exact ⟨mem_setTask_of_ne hxm hxne, hxp⟩
        · exact htsnd.2
      · rw [assignStep_of_le hpb hsc]
        exact ih (s, pool, recs) hinv hpool hpoolnd
          (fun x hx => hts x (List.mem_cons_of_mem _ hx)) htsnd.2

/-- `assign_tasks` preserves the strengthened invariant. -/
theorem strongInv_assign_tasks {s : QFoxController} (h : StrongInv s)
    (now : ℚ) : StrongInv (s.assign_tasks now).1 := by
  unfold QFoxController.assign_tasks
  dsimp only
  split
  · exact h
  · dsimp only
    apply strongInv_assignLoop
    · exact h
    · intro a ha
      rw [List.mem_filter] at ha
      exact ⟨ha.1, by simpa using ha.2⟩
    · exact h.2.1.sublist ((List.filter_sublist _).map _)
    · intro t ht
      exact mem_sortedPending.1 ht
    · exact sortedPending_ids_nodup h.1

theorem countP_eq_one_unique_id {x : Task} (p : Task → Bool) :
    ∀ {l : List Task}, (l.map (fun t => t.id)).Nodup → x ∈ l →
      p x = true → (∀ y, p y = true → y.id = x.id) → l.countP p = 1 := by
  intro l
  induction l with
  | nil => intro _ hx; cases hx
  | cons h tl ih =>
    intro hnd hx hpx hkey
    rw [List.map_cons, List.nodup_cons] at hnd
    by_cases hph : p h = true
    · rw [List.countP_cons_of_pos p tl hph]
      have hzero : tl.countP p = 0 := by
        rw [List.countP_eq_zero]
        intro y hy hpy
        have h1 : y.id = x.id := hkey y hpy
        have h2 : h.id = x.id := hkey h hph
        exact hnd.1 ((h2.trans h1.symm) ▸ List.mem_map_of_mem _ hy)
      rw [hzero]
    · rw [List.countP_cons_of_neg p tl (by simpa using hph)]
      have hx' : x ∈ tl := by
        rcases List.mem_cons.1 hx with rfl | hx'
        · exact absurd hpx hph
        · exact hx'
      exact ih hnd.2 hx' hpx hkey

/-- The strengthened invariant implies the claim's stated invariant. -/
theorem strongInv_implies_stated {s : QFoxController} (h : StrongInv s) :
    statedInvB s = true := by
  obtain ⟨hndT, hndA, hT, hA⟩ := h
  unfold statedInvB
  rw [Bool.and_eq_true]
  constructor
  · rw [List.all_eq_true]
    intro t ht
    have hc := hT t ht
    unfold taskConsistent at hc
    rw [beq_iff_eq]
    apply Bool.coe_iff_coe.1
    simpa [Bool.or_eq_true, beq_iff_eq, or_assoc] using hc
  · rw [List.all_eq_true]
    intro a ha
    rw [Bool.and_eq_true]
    constructor
    · rw [beq_iff_eq]
      apply Bool.coe_iff_coe.1
      simpa [beq_iff_eq] using (hA a ha).1
    · cases hc : a.current_task with
      | none => rfl
      | some tid =>
        have hptr := (hA a ha).2
        rw [hc] at hptr
        obtain ⟨x, hxm, h1, h2, h3⟩ := hptr
        rw [beq_iff_eq]
        apply countP_eq_one_unique_id _ hndT hxm
        · simp [h1, h2]
        · intro y hpy
          rw [Bool.and_eq_true, beq_iff_eq] at hpy
          rw [h1]
          exact hpy.1

/-- C1 (amended): the stated invariant alone is not inductive (see the
counterexample), but each of the five controller operations preserves the
strengthened invariant — unique ids, the stated task clause, and for every
Busy agent an InProgress task with its id whose `assigned_agent` is that
agent — and the strengthened invariant implies the stated one.
`create_task` additionally assumes the generated uuid is fresh. -/
theorem C1_operations_preserve_strengthened_invariant :
    (∀ (s : QFoxController) (tid nm ds : String) (reqs : List String)
        (cx pr est now₀ : ℚ), StrongInv s →
        tid ∉ s.tasks.map (fun t => t.id) →
        StrongInv (s.create_task tid nm ds reqs cx pr est now₀).1) ∧
    (∀ (s : QFoxController) (now : ℚ), StrongInv s →
        StrongInv (s.assign_tasks now).1) ∧
    (∀ (s : QFoxController) (tid : String) (success : Bool) (dur now : ℚ),
        StrongInv s →
        StrongInv (s.process_task_completion tid success dur now)) ∧
    (∀ (s : QFoxController) (aid : String), StrongInv s →
        StrongInv (s.remove_agent aid).1) ∧
    (∀ (s : QFoxController) (tid : String), StrongInv s →
        StrongInv (s.remove_task tid).1) ∧
    (∀ s : QFoxController, StrongInv s → statedInvB s = true) :=
  ⟨fun _ _ nm ds reqs cx pr est now₀ h hfresh =>
      strongInv_create_task h hfresh nm ds reqs cx pr est now₀,
   fun _ now h => strongInv_assign_tasks h now,
   fun _ tid success dur now h =>
      strongInv_process_completion h tid success dur now,
   fun _ aid h => strongInv_remove_agent h aid,
   fun _ tid h => strongInv_remove_task h tid,
   fun _ h => strongInv_implies_stated h⟩

/-- A state satisfying the strengthened invariant: agent A Busy on the
InProgress task `"t"`, which is assigned to A. -/
def sC1good : QFoxController := { agents := [agC1A], tasks := [taskC1] }

theorem C1_witness :
    (StrongInv sC1good ∧ "t9" ∉ sC1good.tasks.map (fun t => t.id)) ∧
    StrongInv (sC1good.create_task "t9" "" "" [] 1 1 1 0).1 ∧
    StrongInv (sC1good.assign_tasks 0).1 ∧
    StrongInv (sC1good.process_task_completion "t" true 1 0) ∧
    StrongInv (sC1good.remove_agent "A").1 ∧
    StrongInv (sC1good.remove_task "t").1 ∧
    statedInvB sC1good = true :=
  ⟨⟨by decide, by decide⟩,
   C1_operations_preserve_strengthened_invariant.1 sC1good "t9" "" "" [] 1 1 1
     0 (by decide) (by decide),
   C1_operations_preserve_strengthened_invariant.2.1 sC1good 0 (by decide),
   C1_operations_preserve_strengthened_invariant.2.2.1 sC1good "t" true 1 0
     (by decide),
   C1_operations_preserve_strengthened_invariant.2.2.2.1 sC1good "A"
     (by decide),
   C1_operations_preserve_strengthened_invariant.2.2.2.2.1 sC1good "t"
     (by decide),
   C1_operations_preserve_strengthened_invariant.2.2.2.2.2 sC1good
     (by decide)⟩

end OFox
